import Mathlib

/-!
Verification development for the conversion layer of `moveit_drake`
(`src/conversions.cpp`).  The C++ functions are shallowly embedded in Lean:

* MoveIt's named-joint world is modelled by `JointModel`, `JointModelGroup`
  and `RobotState`; Drake's dense-vector world by `Plant`
  (`num_positions`, `num_velocities`, `GetJointByName(..).ordinal()`).
* Dense Eigen vectors become `List ℚ` (ideal real arithmetic) or `List D`
  where the IEEE special values (NaN, ±∞) of `double` matter; `D` is an
  exact-rational idealization of `double` that keeps the special values
  but ignores rounding and overflow of finite values.
* Each C++ function is translated statement by statement; loops that fill
  vectors become `List.foldl` over the active-joint list.
-/

/-- A MoveIt joint model: its name together with the single-DoF variable
bound descriptor (`moveit::core::VariableBounds`), i.e. four independent
(bounded-flag, min, max) triples. -/
structure JointModel where
  name : String
  position_bounded : Bool
  min_position : ℚ
  max_position : ℚ
  velocity_bounded : Bool
  min_velocity : ℚ
  max_velocity : ℚ
  acceleration_bounded : Bool
  min_acceleration : ℚ
  max_acceleration : ℚ
  jerk_bounded : Bool
  min_jerk : ℚ
  max_jerk : ℚ
deriving DecidableEq

/-- A MoveIt joint model group: the ordered list of active joint models. -/
structure JointModelGroup where
  activeJointModels : List JointModel
deriving DecidableEq

/-- The Drake `MultibodyPlant` as seen by the conversion code: position and
velocity capacities and the joint-name → ordinal-index lookup
(`plant.GetJointByName(name).ordinal()`). -/
structure Plant where
  num_positions : ℕ
  num_velocities : ℕ
  ordinalOf : String → ℕ

/-- A MoveIt `RobotState` restricted to what the conversions read: the
per-joint-name position and velocity variables. -/
structure RobotState where
  positionOf : String → ℚ
  velocityOf : String → ℚ

/-- Consistency of a group with a plant for position vectors: every active
joint's ordinal lies below the position capacity, and the name → ordinal
map is injective on the group (the spec's bijection invariant). -/
def consistentPos (g : JointModelGroup) (p : Plant) : Prop :=
  (∀ jm ∈ g.activeJointModels, p.ordinalOf jm.name < p.num_positions) ∧
  (∀ jm1 ∈ g.activeJointModels, ∀ jm2 ∈ g.activeJointModels,
    p.ordinalOf jm1.name = p.ordinalOf jm2.name → jm1.name = jm2.name)

/-- Consistency of a group with a plant for velocity vectors. -/
def consistentVel (g : JointModelGroup) (p : Plant) : Prop :=
  (∀ jm ∈ g.activeJointModels, p.ordinalOf jm.name < p.num_velocities) ∧
  (∀ jm1 ∈ g.activeJointModels, ∀ jm2 ∈ g.activeJointModels,
    p.ordinalOf jm1.name = p.ordinalOf jm2.name → jm1.name = jm2.name)

/-! ### List helper lemmas (vector reads and writes) -/

theorem getD_set_ne {α : Type} (v : List α) (j i : ℕ) (a d : α) (h : j ≠ i) :
    (v.set j a).getD i d = v.getD i d := by
  induction v generalizing i j with
  | nil => simp [List.set]
  | cons x xs ih =>
    cases j with
    | zero =>
      cases i with
      | zero => exact absurd rfl h
      | succ i => simp [List.set, List.getD]
    | succ j =>
      cases i with
      | zero => simp [List.set, List.getD]
      | succ i =>
        simp only [List.set, List.getD_cons_succ]
        exact ih j i (fun hji => h (by rw [hji]))

theorem getD_set_self {α : Type} (v : List α) (i : ℕ) (a d : α) (h : i < v.length) :
    (v.set i a).getD i d = a := by
  induction v generalizing i with
  | nil => simp at h
  | cons x xs ih =>
    cases i with
    | zero => simp [List.set, List.getD]
    | succ i =>
      simp only [List.set, List.getD_cons_succ]
      exact ih i (by simpa using h)

theorem getD_replicate {α : Type} (n i : ℕ) (x d : α) (h : i < n) :
    (List.replicate n x).getD i d = x := by
  induction n generalizing i with
  | zero => omega
  | succ n ih =>
    cases i with
    | zero => simp [List.replicate, List.getD]
    | succ i =>
      simp only [List.replicate, List.getD_cons_succ]
      exact ih i (by omega)

/-! ### Generic write-loop lemmas

All six vector-filling loops in `conversions.cpp` have the shape: start from
an initialized vector and, per active joint, optionally write a value at the
joint's ordinal.  The following lemmas characterize such a loop. -/

/-- One guarded write step: if `guard jm` holds, write `val jm` at index
`key jm`, else leave the vector unchanged. -/
def writeStep {α : Type} (guard : JointModel → Bool) (key : JointModel → ℕ)
    (val : JointModel → α) (v : List α) (jm : JointModel) : List α :=
  if guard jm then v.set (key jm) (val jm) else v

theorem writeFold_length {α : Type} (guard : JointModel → Bool) (key : JointModel → ℕ)
    (val : JointModel → α) (l : List JointModel) (init : List α) :
    (l.foldl (writeStep guard key val) init).length = init.length := by
  induction l generalizing init with
  | nil => rfl
  | cons x xs ih =>
    simp only [List.foldl_cons]
    rw [ih]
    unfold writeStep
    split <;> simp [List.length_set]

theorem writeStep_length {α : Type} (guard : JointModel → Bool) (key : JointModel → ℕ)
    (val : JointModel → α) (v : List α) (jm : JointModel) :
    (writeStep guard key val v jm).length = v.length := by
  unfold writeStep
  split <;> simp

theorem writeFold_getD_not_written {α : Type} (guard : JointModel → Bool)
    (key : JointModel → ℕ) (val : JointModel → α) (l : List JointModel)
    (init : List α) (i : ℕ) (d : α)
    (h : ∀ jm ∈ l, guard jm = true → key jm ≠ i) :
    (l.foldl (writeStep guard key val) init).getD i d = init.getD i d := by
  induction l generalizing init with
  | nil => rfl
  | cons x xs ih =>
    simp only [List.foldl_cons]
    rw [ih _ (fun jm hm hg => h jm (List.mem_cons_of_mem x hm) hg)]
    by_cases hg : guard x = true
    · unfold writeStep
      rw [if_pos hg]
      exact getD_set_ne _ _ _ _ _ (h x (List.mem_cons_self x xs) hg)
    · unfold writeStep
      rw [if_neg hg]

theorem writeFold_getD_written {α : Type} (guard : JointModel → Bool)
    (key : JointModel → ℕ) (val : JointModel → α) (l : List JointModel) :
    ∀ (init : List α) (d : α) (jm : JointModel), jm ∈ l → guard jm = true →
      key jm < init.length →
      (∀ jm2 ∈ l, guard jm2 = true → key jm2 = key jm → val jm2 = val jm) →
      (l.foldl (writeStep guard key val) init).getD (key jm) d = val jm := by
  induction l with
  | nil =>
    intro init d jm hmem
    cases hmem
  | cons x xs ih =>
    intro init d jm hmem hg hlt hagree
    simp only [List.foldl_cons]
    by_cases hx : ∃ jm2 ∈ xs, guard jm2 = true ∧ key jm2 = key jm
    · obtain ⟨jm2, hm2, hg2, hk2⟩ := hx
      have hv2 : val jm2 = val jm := hagree jm2 (List.mem_cons_of_mem x hm2) hg2 hk2
      have hlen : key jm2 < (writeStep guard key val init x).length := by
        rw [writeStep_length, hk2]
        exact hlt
      have hmain := ih (writeStep guard key val init x) d jm2 hm2 hg2 hlen
        (fun jm3 hm3 hg3 hk3 =>
          (hagree jm3 (List.mem_cons_of_mem x hm3) hg3 (hk3.trans hk2)).trans hv2.symm)
      rw [hk2, hv2] at hmain
      exact hmain
    · push_neg at hx
      rw [writeFold_getD_not_written guard key val xs _ _ _
        (fun jm2 hm2 hg2 => hx jm2 hm2 hg2)]
      have hxm : jm = x := by
        rcases List.mem_cons.mp hmem with h | h
        · exact h
        · exact absurd rfl (hx jm h hg)
      subst hxm
      unfold writeStep
      rw [if_pos hg]
      exact getD_set_self _ _ _ _ hlt

/-! ### `getJointPositionVector` / `getJointVelocityVector`
(`conversions.cpp` lines 57–86): zero-initialize a vector of the plant's
capacity, then for every active joint write the state's variable at the
joint's ordinal. -/

/-- `getJointPositionVector(moveit_state, group_name, plant)`. -/
def getJointPositionVector (moveit_state : RobotState) (g : JointModelGroup)
    (plant : Plant) : List ℚ :=
  g.activeJointModels.foldl
    (writeStep (fun _ => true) (fun jm => plant.ordinalOf jm.name)
      (fun jm => moveit_state.positionOf jm.name))
    (List.replicate plant.num_positions 0)

/-- `getJointVelocityVector(moveit_state, group_name, plant)`. -/
def getJointVelocityVector (moveit_state : RobotState) (g : JointModelGroup)
    (plant : Plant) : List ℚ :=
  g.activeJointModels.foldl
    (writeStep (fun _ => true) (fun jm => plant.ordinalOf jm.name)
      (fun jm => moveit_state.velocityOf jm.name))
    (List.replicate plant.num_velocities 0)

/-- The unpack direction as performed by `getRobotTrajectory`
(`conversions.cpp` lines 228–234): a named-joint state whose variables are
read from dense vectors at each joint's ordinal
(`pos_val(joint_index)`, `vel_val(joint_index)`). -/
def unpackState (pos vel : List ℚ) (plant : Plant) : RobotState :=
  { positionOf := fun n => pos.getD (plant.ordinalOf n) 0
    velocityOf := fun n => vel.getD (plant.ordinalOf n) 0 }

/-! ### An exact model of `double` with IEEE special values

`D` keeps NaN and the two infinities and represents every finite double by
an exact rational (rounding and overflow of finite arithmetic are ignored;
none of the verified claims depends on them).  Operations follow IEEE-754 /
C++ semantics on the special values. -/

inductive D where
  | nan : D
  | pinf : D
  | ninf : D
  | fin : ℚ → D
deriving DecidableEq

namespace D

/-- `a < b` as C++ `operator<` on doubles: every comparison with NaN is
false. -/
def blt : D → D → Bool
  | nan, _ => false
  | _, nan => false
  | ninf, ninf => false
  | ninf, pinf => true
  | ninf, fin _ => true
  | pinf, _ => false
  | fin _, pinf => true
  | fin _, ninf => false
  | fin a, fin b => decide (a < b)

/-- `std::min(a, b)`, which is `b < a ? b : a`. -/
def stdmin (a b : D) : D := if blt b a then b else a

/-- Double multiplication on the special values; exact on finite values. -/
def mul : D → D → D
  | nan, _ => nan
  | _, nan => nan
  | pinf, pinf => pinf
  | pinf, ninf => ninf
  | ninf, pinf => ninf
  | ninf, ninf => pinf
  | pinf, fin b => if 0 < b then pinf else if b < 0 then ninf else nan
  | fin a, pinf => if 0 < a then pinf else if a < 0 then ninf else nan
  | ninf, fin b => if 0 < b then ninf else if b < 0 then pinf else nan
  | fin a, ninf => if 0 < a then ninf else if a < 0 then pinf else nan
  | fin a, fin b => fin (a * b)

/-- Double division: `0/0 = NaN`, `x/0 = ±∞` for `x ≠ 0` (the zero is +0),
`∞/∞ = NaN`; exact on finite values with nonzero divisor. -/
def div : D → D → D
  | nan, _ => nan
  | _, nan => nan
  | pinf, pinf => nan
  | pinf, ninf => nan
  | ninf, pinf => nan
  | ninf, ninf => nan
  | pinf, fin b => if 0 ≤ b then pinf else ninf
  | ninf, fin b => if 0 ≤ b then ninf else pinf
  | fin _, pinf => fin 0
  | fin _, ninf => fin 0
  | fin a, fin b =>
    if b = 0 then (if a = 0 then nan else if 0 < a then pinf else ninf)
    else fin (a / b)

/-- Double addition on the special values; exact on finite values. -/
def add : D → D → D
  | nan, _ => nan
  | _, nan => nan
  | pinf, ninf => nan
  | ninf, pinf => nan
  | pinf, _ => pinf
  | _, pinf => pinf
  | ninf, _ => ninf
  | _, ninf => ninf
  | fin a, fin b => fin (a + b)

/-- `std::ceil` on doubles. -/
def dceil : D → D
  | nan => nan
  | pinf => pinf
  | ninf => ninf
  | fin a => fin ⌈a⌉

end D

/-- `std::numeric_limits<double>::max()`: the largest finite double,
exactly `(2 - 2⁻⁵²) · 2¹⁰²³ = 2¹⁰²⁴ - 2⁹⁷¹`. -/
def dblMax : ℚ := 2 ^ 1024 - 2 ^ 971

/-- `std::numeric_limits<double>::lowest()`: the most negative finite
double, exactly `-dblMax` (a finite value, not `-∞`). -/
def dblLowest : ℚ := -dblMax

/-- `kMaxVelocity = kMaxAcceleration = kMaxJerk = 100.0`
(`conversions.cpp` lines 44–46). -/
def kMaxLimit : ℚ := 100

/-! ### Bounds extraction (`conversions.cpp` lines 88–186)

Each of the four functions resizes the lower/upper output vectors to the
plant capacity, fills every entry with the category default, then for every
active joint whose bounded-flag is set overwrites lower/upper at the
joint's ordinal with the declared min/max.  The single C++ loop writing
both vectors is modelled as a fold over pairs; `foldPair_eq` relates it to
the one-vector folds characterized above. -/

/-- One loop iteration writing the (lower, upper) pair. -/
def writePairStep {α : Type} (guard : JointModel → Bool) (key : JointModel → ℕ)
    (val1 val2 : JointModel → α) (v : List α × List α) (jm : JointModel) :
    List α × List α :=
  if guard jm then
    (v.1.set (key jm) (val1 jm), v.2.set (key jm) (val2 jm))
  else v

theorem foldPair_eq {α : Type} (guard : JointModel → Bool) (key : JointModel → ℕ)
    (val1 val2 : JointModel → α) (l : List JointModel) (a b : List α) :
    l.foldl (writePairStep guard key val1 val2) (a, b) =
      (l.foldl (writeStep guard key val1) a, l.foldl (writeStep guard key val2) b) := by
  induction l generalizing a b with
  | nil => rfl
  | cons x xs ih =>
    simp only [List.foldl_cons]
    by_cases hg : guard x = true
    · rw [show writePairStep guard key val1 val2 (a, b) x =
          (writeStep guard key val1 a x, writeStep guard key val2 b x) by
            unfold writePairStep writeStep
            rw [if_pos hg, if_pos hg, if_pos hg]]
      exact ih _ _
    · rw [show writePairStep guard key val1 val2 (a, b) x = (a, b) by
            unfold writePairStep
            rw [if_neg hg],
          show writeStep guard key val1 a x = a by
            unfold writeStep
            rw [if_neg hg],
          show writeStep guard key val2 b x = b by
            unfold writeStep
            rw [if_neg hg]]
      exact ih _ _

/-- `getPositionBounds(joint_model_group, plant, lower, upper)`
(lines 88–111): vectors of length `num_positions`, default entries
`lowest()` / `max()`, then per flagged joint the declared position
min/max.  Returns the `(lower, upper)` pair. -/
def getPositionBounds (g : JointModelGroup) (plant : Plant) : List D × List D :=
  g.activeJointModels.foldl
    (writePairStep (fun jm => jm.position_bounded) (fun jm => plant.ordinalOf jm.name)
      (fun jm => D.fin jm.min_position) (fun jm => D.fin jm.max_position))
    (List.replicate plant.num_positions (D.fin dblLowest),
     List.replicate plant.num_positions (D.fin dblMax))

/-- `getVelocityBounds` (lines 113–136): length `num_velocities`, defaults
`±kMaxVelocity`, overwrites per flagged joint. -/
def getVelocityBounds (g : JointModelGroup) (plant : Plant) : List D × List D :=
  g.activeJointModels.foldl
    (writePairStep (fun jm => jm.velocity_bounded) (fun jm => plant.ordinalOf jm.name)
      (fun jm => D.fin jm.min_velocity) (fun jm => D.fin jm.max_velocity))
    (List.replicate plant.num_velocities (D.fin (-kMaxLimit)),
     List.replicate plant.num_velocities (D.fin kMaxLimit))

/-- `getAccelerationBounds` (lines 138–161): length `num_velocities`,
defaults `±kMaxAcceleration`, overwrites per flagged joint. -/
def getAccelerationBounds (g : JointModelGroup) (plant : Plant) : List D × List D :=
  g.activeJointModels.foldl
    (writePairStep (fun jm => jm.acceleration_bounded) (fun jm => plant.ordinalOf jm.name)
      (fun jm => D.fin jm.min_acceleration) (fun jm => D.fin jm.max_acceleration))
    (List.replicate plant.num_velocities (D.fin (-kMaxLimit)),
     List.replicate plant.num_velocities (D.fin kMaxLimit))

/-- `getJerkBounds` (lines 163–186): length `num_velocities`, defaults
`±kMaxJerk`, overwrites per flagged joint. -/
def getJerkBounds (g : JointModelGroup) (plant : Plant) : List D × List D :=
  g.activeJointModels.foldl
    (writePairStep (fun jm => jm.jerk_bounded) (fun jm => plant.ordinalOf jm.name)
      (fun jm => D.fin jm.min_jerk) (fun jm => D.fin jm.max_jerk))
    (List.replicate plant.num_velocities (D.fin (-kMaxLimit)),
     List.replicate plant.num_velocities (D.fin kMaxLimit))

/-! ### Trajectory fitting (`getPiecewisePolynomial`, lines 188–207)

Waypoint `i` contributes its packed position vector as a sample and its
duration-from-start as a break; the pair is handed to Drake's
`PiecewisePolynomial::FirstOrderHold`, whose evaluation semantics
(piecewise-linear value, piecewise-constant first derivative, segment
lookup clamped to the final segment) is embedded below. -/

/-- A `robot_trajectory::RobotTrajectory` as read by the fitter: per
waypoint the duration from start and the robot state. -/
structure RobotTrajectoryIn where
  waypoints : List (ℚ × RobotState)

/-- A first-order-hold piecewise polynomial: its breaks and the sample
vector at each break. -/
structure PiecewiseFOH where
  breaks : List ℚ
  samples : List (List ℚ)

/-- `getPiecewisePolynomial(robot_trajectory, group, plant)`: breaks are
the waypoint durations from start, samples the packed position vectors. -/
def getPiecewisePolynomial (robot_trajectory : RobotTrajectoryIn)
    (g : JointModelGroup) (plant : Plant) : PiecewiseFOH :=
  { breaks := robot_trajectory.waypoints.map (fun w => w.1)
    samples := robot_trajectory.waypoints.map
      (fun w => getJointPositionVector w.2 g plant) }

/-- Index of the segment containing `t` (Drake's `get_segment_index`):
the first segment whose right break exceeds `t`, clamped to the final
segment for `t` at or beyond the last break. -/
def segIndex : List ℚ → ℚ → ℕ
  | _ :: b :: c :: rest, t => if t < b then 0 else segIndex (b :: c :: rest) t + 1
  | _, _ => 0

/-- `end_time()` of the piecewise polynomial: the last break. -/
def fohEndTime (pp : PiecewiseFOH) : ℚ :=
  pp.breaks.getD (pp.breaks.length - 1) 0

/-- `value(t)` of the first-order hold: on the segment `[t0, t1]` holding
`t`, the linear interpolation `s0 + (t - t0)/(t1 - t0) * (s1 - s0)`,
componentwise. -/
def fohValue (pp : PiecewiseFOH) (t : ℚ) : List ℚ :=
  let i := segIndex pp.breaks t
  let t0 := pp.breaks.getD i 0
  let t1 := pp.breaks.getD (i + 1) 0
  List.zipWith (fun a b => a + (t - t0) / (t1 - t0) * (b - a))
    (pp.samples.getD i []) (pp.samples.getD (i + 1) [])

/-- `EvalDerivative(t)` of the first-order hold: the constant slope
`(s1 - s0)/(t1 - t0)` of the segment holding `t`, componentwise. -/
def fohDeriv (pp : PiecewiseFOH) (t : ℚ) : List ℚ :=
  let i := segIndex pp.breaks t
  let t0 := pp.breaks.getD i 0
  let t1 := pp.breaks.getD (i + 1) 0
  List.zipWith (fun a b => (b - a) / (t1 - t0))
    (pp.samples.getD i []) (pp.samples.getD (i + 1) [])

/-! ### Trajectory resampling (`getRobotTrajectory`, lines 209–239)

The loop body is translated literally: `num_pts` samples, sample time
`min(i/(num_pts-1), 1) * end_time`, per-joint unpack of the value and
first-derivative vectors, and append with elapsed-time-delta `t - t_prev`.
The ideal-arithmetic (`ℚ`) model is used for the counting/delta claims;
the `D` model below captures the `double` special-value behavior of the
same two source lines. -/

/-- One appended MoveIt waypoint: the elapsed-time delta passed to
`addSuffixWayPoint` and the named-joint positions and velocities written
into the `RobotState`. -/
structure WaypointOut where
  delta : ℚ
  jointPositions : List (String × ℚ)
  jointVelocities : List (String × ℚ)
deriving DecidableEq

instance : Inhabited WaypointOut := ⟨⟨0, [], []⟩⟩

/-- `num_pts = static_cast<size_t>(std::ceil(end_time / delta_t) + 1)`
(line 218), in exact arithmetic. -/
def numPts (endTime deltaT : ℚ) : ℕ := (⌈endTime / deltaT⌉ + 1).toNat

/-- `t = std::min(i / (num_pts - 1), 1.0) * end_time` (lines 223–224), in
exact arithmetic (`num_pts - 1` is the `size_t` subtraction). -/
def sampleTime (endTime : ℚ) (n i : ℕ) : ℚ :=
  min ((i : ℚ) / ((n - 1 : ℕ) : ℚ)) 1 * endTime

/-- The waypoint appended at loop index `i`: positions/velocities read at
each active joint's ordinal from the trajectory value and derivative at
the sample time, delta `t - t_prev`. -/
def mkWaypoint (valueAt derivAt : ℚ → List ℚ) (endTime : ℚ) (n : ℕ)
    (g : JointModelGroup) (plant : Plant) (i : ℕ) (tPrev : ℚ) : WaypointOut :=
  let t := sampleTime endTime n i
  { delta := t - tPrev
    jointPositions := g.activeJointModels.map
      (fun jm => (jm.name, (valueAt t).getD (plant.ordinalOf jm.name) 0))
    jointVelocities := g.activeJointModels.map
      (fun jm => (jm.name, (derivAt t).getD (plant.ordinalOf jm.name) 0)) }

/-- One iteration of the resampling loop: append the waypoint, update
`t_prev`. -/
def resampleStep (valueAt derivAt : ℚ → List ℚ) (endTime : ℚ) (n : ℕ)
    (g : JointModelGroup) (plant : Plant) (acc : List WaypointOut × ℚ) (i : ℕ) :
    List WaypointOut × ℚ :=
  (acc.1 ++ [mkWaypoint valueAt derivAt endTime n g plant i acc.2],
   sampleTime endTime n i)

/-- `getRobotTrajectory(drake_trajectory, delta_t, plant, moveit_trajectory)`:
the output trajectory is cleared and `num_pts` waypoints are appended.
`valueAt`/`derivAt`/`endTime` are the consumed `Trajectory<double>`
interface (`value`, `EvalDerivative`, `end_time`). -/
def getRobotTrajectory (valueAt derivAt : ℚ → List ℚ) (endTime deltaT : ℚ)
    (g : JointModelGroup) (plant : Plant) : List WaypointOut :=
  ((List.range (numPts endTime deltaT)).foldl
    (resampleStep valueAt derivAt endTime (numPts endTime deltaT) g plant)
    ([], 0)).1

/-! ### The same sample-time computation over `D`

Lines 218 and 223–224 again, now with `double` special values, for the
claims about `delta_t ≤ 0` and the `num_pts = 1` division `0/0`. -/

/-- Line 218 before the `size_t` cast: `ceil(end_time / delta_t) + 1` as a
`double`. -/
def numPtsExpr (endTime deltaT : D) : D :=
  D.add (D.dceil (D.div endTime deltaT)) (D.fin 1)

/-- Line 223: `t_scale = i / (num_pts - 1)` as a `double` (both operands
are casts of the unsigned integers). -/
def tScaleD (n i : ℕ) : D :=
  D.div (D.fin i) (D.fin ((n - 1 : ℕ) : ℚ))

/-- Line 224: `t = std::min(t_scale, 1.0) * end_time` as a `double`. -/
def tSampleD (endTime : D) (n i : ℕ) : D :=
  D.mul (D.stdmin (tScaleD n i) (D.fin 1)) endTime

/-! ### Characterizing the resampling loop -/

/-- The sequence of waypoints the loop appends for the given loop indices,
threading `t_prev`. -/
def deltaSeq (valueAt derivAt : ℚ → List ℚ) (endTime : ℚ) (n : ℕ)
    (g : JointModelGroup) (plant : Plant) : ℚ → List ℕ → List WaypointOut
  | _, [] => []
  | tPrev, i :: is =>
    mkWaypoint valueAt derivAt endTime n g plant i tPrev ::
      deltaSeq valueAt derivAt endTime n g plant (sampleTime endTime n i) is

theorem resampleFold_fst (valueAt derivAt : ℚ → List ℚ) (endTime : ℚ) (n : ℕ)
    (g : JointModelGroup) (plant : Plant) (l : List ℕ) :
    ∀ (ws : List WaypointOut) (tPrev : ℚ),
      (l.foldl (resampleStep valueAt derivAt endTime n g plant) (ws, tPrev)).1 =
        ws ++ deltaSeq valueAt derivAt endTime n g plant tPrev l := by
  induction l with
  | nil =>
    intro ws tPrev
    simp [deltaSeq]
  | cons i is ih =>
    intro ws tPrev
    simp only [List.foldl_cons, resampleStep, ih, deltaSeq, List.append_assoc,
      List.singleton_append]

theorem deltaSeq_length (valueAt derivAt : ℚ → List ℚ) (endTime : ℚ) (n : ℕ)
    (g : JointModelGroup) (plant : Plant) (l : List ℕ) :
    ∀ tPrev, (deltaSeq valueAt derivAt endTime n g plant tPrev l).length = l.length := by
  induction l with
  | nil => intro tPrev; rfl
  | cons i is ih =>
    intro tPrev
    simp only [deltaSeq, List.length_cons, ih]

theorem deltaSeq_getD_succ (valueAt derivAt : ℚ → List ℚ) (endTime : ℚ) (n : ℕ)
    (g : JointModelGroup) (plant : Plant) (l : List ℕ) :
    ∀ (tPrev : ℚ) (k : ℕ), k + 1 < l.length →
      (deltaSeq valueAt derivAt endTime n g plant tPrev l).getD (k + 1) default =
        mkWaypoint valueAt derivAt endTime n g plant (l.getD (k + 1) 0)
          (sampleTime endTime n (l.getD k 0)) := by
  induction l with
  | nil =>
    intro tPrev k hk
    simp at hk
  | cons i is ih =>
    intro tPrev k hk
    cases k with
    | zero =>
      cases is with
      | nil => simp at hk
      | cons j js =>
        simp [deltaSeq, List.getD]
    | succ k =>
      have hk' : k + 1 < is.length := by simpa using hk
      simp only [deltaSeq, List.getD_cons_succ]
      rw [ih _ k hk']

theorem deltaSeq_sum (valueAt derivAt : ℚ → List ℚ) (endTime : ℚ) (n : ℕ)
    (g : JointModelGroup) (plant : Plant) (l : List ℕ) :
    ∀ (tPrev : ℚ) (i : ℕ), l.getLast? = some i →
      ((deltaSeq valueAt derivAt endTime n g plant tPrev l).map
          (fun w => w.delta)).sum = sampleTime endTime n i - tPrev := by
  induction l with
  | nil =>
    intro tPrev i h
    simp at h
  | cons j js ih =>
    intro tPrev i h
    cases js with
    | nil =>
      simp only [List.getLast?_singleton, Option.some.injEq] at h
      subst h
      simp [deltaSeq, mkWaypoint]
    | cons k ks =>
      rw [List.getLast?_cons_cons] at h
      have hstep : deltaSeq valueAt derivAt endTime n g plant tPrev (j :: k :: ks) =
          mkWaypoint valueAt derivAt endTime n g plant j tPrev ::
            deltaSeq valueAt derivAt endTime n g plant (sampleTime endTime n j)
              (k :: ks) := rfl
      rw [hstep, List.map_cons, List.sum_cons, ih _ i h]
      show sampleTime endTime n j - tPrev +
        (sampleTime endTime n i - sampleTime endTime n j) = sampleTime endTime n i - tPrev
      ring

/-! ### Segment lookup correctness for the first-order hold -/

theorem getD_mono_adj (bs : List ℚ)
    (h : ∀ k, k + 1 < bs.length → bs.getD k 0 < bs.getD (k + 1) 0) :
    ∀ a b : ℕ, a ≤ b → b < bs.length → bs.getD a 0 ≤ bs.getD b 0 := by
  intro a b hab hb
  induction b with
  | zero =>
    have : a = 0 := Nat.le_zero.mp hab
    simp [this]
  | succ b ih =>
    rcases Nat.lt_or_ge a (b + 1) with hlt | hge
    · have ha : a ≤ b := Nat.lt_succ_iff.mp hlt
      have hb' : b < bs.length := Nat.lt_of_succ_lt hb
      exact le_trans (ih ha hb') (le_of_lt (h b hb))
    · have : a = b + 1 := le_antisymm hab hge
      simp [this]

theorem segIndex_eq (bs : List ℚ) :
    ∀ (i : ℕ) (t : ℚ),
      (∀ k, k + 1 < bs.length → bs.getD k 0 < bs.getD (k + 1) 0) →
      i + 1 < bs.length → bs.getD i 0 ≤ t → t < bs.getD (i + 1) 0 →
      segIndex bs t = i := by
  induction bs with
  | nil =>
    intro i t _ hi
    simp at hi
  | cons b0 rest ih =>
    intro i t hadj hi hlo hhi
    cases rest with
    | nil => simp at hi
    | cons b1 rest' =>
      cases i with
      | zero =>
        cases rest' with
        | nil => rfl
        | cons c r =>
          have ht : t < b1 := by simpa [List.getD] using hhi
          simp [segIndex, ht]
      | succ i' =>
        have hrest : ∃ c r, rest' = c :: r := by
          cases rest' with
          | nil =>
            simp at hi
            omega
          | cons c r => exact ⟨c, r, rfl⟩
        obtain ⟨c, r, hr⟩ := hrest
        subst hr
        have hadjTail : ∀ k, k + 1 < (b1 :: c :: r).length →
            (b1 :: c :: r).getD k 0 < (b1 :: c :: r).getD (k + 1) 0 := by
          intro k hk
          have := hadj (k + 1) (by simpa using Nat.succ_lt_succ hk)
          simpa [List.getD_cons_succ] using this
        have hiTail : i' + 1 < (b1 :: c :: r).length := by simpa using Nat.lt_of_succ_lt_succ hi
        have hloTail : (b1 :: c :: r).getD i' 0 ≤ t := by
          simpa [List.getD_cons_succ] using hlo
        have hhiTail : t < (b1 :: c :: r).getD (i' + 1) 0 := by
          simpa [List.getD_cons_succ] using hhi
        have hb1 : b1 ≤ t := by
          have := getD_mono_adj (b1 :: c :: r) hadjTail 0 i' (Nat.zero_le _)
            (Nat.lt_of_succ_lt hiTail)
          calc b1 = (b1 :: c :: r).getD 0 0 := rfl
            _ ≤ (b1 :: c :: r).getD i' 0 := this
            _ ≤ t := hloTail
        have hnt : ¬ t < b1 := not_lt.mpr hb1
        simp only [segIndex, if_neg hnt]
        rw [ih i' t hadjTail hiTail hloTail hhiTail]

/-! ### `replaceSTLWithOBJ` (`conversions.cpp` lines 241–263)

Strings are `List Char`.  Each C++ `while (find/replace)` pass scans left
to right; on a match of the 4-character pattern it substitutes the
4-character replacement and continues after it, otherwise it moves on by
one character.  Both patterns and the replacement have length 4, so the
pass is the structural recursion `replace4`. -/

/-- One find/replace pass over the string for a 4-character pattern. -/
def replace4 (p0 p1 p2 p3 : Char) (repl : List Char) : List Char → List Char
  | a :: b :: c :: d :: rest =>
    if a = p0 ∧ b = p1 ∧ c = p2 ∧ d = p3 then
      repl ++ replace4 p0 p1 p2 p3 repl rest
    else
      a :: replace4 p0 p1 p2 p3 repl (b :: c :: d :: rest)
  | s => s

/-- Whether a 4-character pattern occurs anywhere in the string. -/
def contains4 (p0 p1 p2 p3 : Char) : List Char → Bool
  | a :: b :: c :: d :: rest =>
    (decide (a = p0 ∧ b = p1 ∧ c = p2 ∧ d = p3)) || contains4 p0 p1 p2 p3 (b :: c :: d :: rest)
  | _ => false

/-- `".obj"` as a character list. -/
def objRepl : List Char := ['.', 'o', 'b', 'j']

/-- `replaceSTLWithOBJ(input)`: first replace every `".stl"`, then every
`".STL"`, each pass scanning left to right and skipping past each
inserted replacement. -/
def replaceSTLWithOBJ (input : List Char) : List Char :=
  replace4 '.' 'S' 'T' 'L' objRepl (replace4 '.' 's' 't' 'l' objRepl input)

/-- The claim's description of the function, as a single left-to-right
scan replacing each occurrence of `".stl"` or `".STL"` by `".obj"` and
copying every other character: the reference the two-pass implementation
is compared against. -/
def simulReplaceSpec : List Char → List Char
  | a :: b :: c :: d :: rest =>
    if (a = '.' ∧ b = 's' ∧ c = 't' ∧ d = 'l') ∨ (a = '.' ∧ b = 'S' ∧ c = 'T' ∧ d = 'L') then
      objRepl ++ simulReplaceSpec rest
    else
      a :: simulReplaceSpec (b :: c :: d :: rest)
  | s => s

/-! ### Lemmas about the find/replace passes -/

theorem replace4_short (p0 p1 p2 p3 : Char) (repl : List Char) (s : List Char)
    (h : ∀ (a b c d : Char) (rest : List Char), s = a :: b :: c :: d :: rest → False) :
    replace4 p0 p1 p2 p3 repl s = s := by
  rcases s with _ | ⟨a, _ | ⟨b, _ | ⟨c, _ | ⟨d, rest⟩⟩⟩⟩
  · rfl
  · rfl
  · rfl
  · rfl
  · exact (h a b c d rest rfl).elim

theorem contains4_short (p0 p1 p2 p3 : Char) (s : List Char)
    (h : s.length < 4) : contains4 p0 p1 p2 p3 s = false := by
  rcases s with _ | ⟨a, _ | ⟨b, _ | ⟨c, _ | ⟨d, rest⟩⟩⟩⟩
  · rfl
  · rfl
  · rfl
  · rfl
  · simp at h
    omega

theorem contains4_tail (p0 p1 p2 p3 : Char) (a : Char) (s : List Char)
    (h : contains4 p0 p1 p2 p3 (a :: s) = false) : contains4 p0 p1 p2 p3 s = false := by
  rcases s with _ | ⟨b, _ | ⟨c, _ | ⟨d, rest⟩⟩⟩
  · rfl
  · rfl
  · rfl
  · rw [contains4] at h
    exact (Bool.or_eq_false_iff.mp h).2

theorem contains4_skip (p0 p1 p2 p3 : Char) (c : Char) (s : List Char) (hc : c ≠ p0) :
    contains4 p0 p1 p2 p3 (c :: s) = contains4 p0 p1 p2 p3 s := by
  rcases s with _ | ⟨x, _ | ⟨y, _ | ⟨z, rest⟩⟩⟩
  · rfl
  · rfl
  · rw [contains4_short p0 p1 p2 p3 [x, y] (by simp)]
    rfl
  · rw [contains4]
    have : decide (c = p0 ∧ x = p1 ∧ y = p2 ∧ z = p3) = false := by
      simp [hc]
    rw [this, Bool.false_or]

theorem contains4_head (p0 p1 p2 p3 : Char) (s : List Char) :
    contains4 p0 p1 p2 p3 (p0 :: s) =
      ((decide (s.take 3 = [p1, p2, p3])) || contains4 p0 p1 p2 p3 s) := by
  rcases s with _ | ⟨x, _ | ⟨y, _ | ⟨z, rest⟩⟩⟩
  · simp [contains4]
  · simp [contains4, List.take]
  · rw [contains4_short p0 p1 p2 p3 [p0, x, y] (by simp)]
    rw [contains4_short p0 p1 p2 p3 [x, y] (by simp)]
    simp [List.take]
  · have h1 : contains4 p0 p1 p2 p3 (p0 :: x :: y :: z :: rest) =
        (decide (p0 = p0 ∧ x = p1 ∧ y = p2 ∧ z = p3) ||
          contains4 p0 p1 p2 p3 (x :: y :: z :: rest)) := rfl
    rw [h1]
    congr 1
    simp [List.take]

theorem replace4_take1 (p1 p2 p3 : Char) (s : List Char) :
    (replace4 '.' p1 p2 p3 objRepl s).take 1 = s.take 1 := by
  induction s using replace4.induct '.' p1 p2 p3 objRepl with
  | case1 a b c d rest h ih =>
    rw [replace4, if_pos h]
    rw [h.1]
    rfl
  | case2 a b c d rest h ih =>
    rw [replace4, if_neg h]
    rfl
  | case3 s h =>
    rw [replace4_short _ _ _ _ _ _ h]

theorem replace4_take2 (p1 p2 p3 : Char) (s : List Char) (y z : Char) (hy : y ≠ '.')
    (h : (replace4 '.' p1 p2 p3 objRepl s).take 2 = [y, z]) : s.take 2 = [y, z] := by
  induction s using replace4.induct '.' p1 p2 p3 objRepl with
  | case1 a b c d rest h4 ih =>
    rw [replace4, if_pos h4] at h
    simp [objRepl, List.take_succ_cons] at h
    exact absurd h.1.symm hy
  | case2 a b c d rest h4 ih =>
    rw [replace4, if_neg h4] at h
    rw [List.take_succ_cons] at h
    obtain ⟨ha, h1⟩ := List.cons_eq_cons.mp h
    have h2 := replace4_take1 p1 p2 p3 (b :: c :: d :: rest)
    rw [h1] at h2
    rw [List.take_succ_cons] at h2
    obtain ⟨hb, _⟩ := List.cons_eq_cons.mp h2.symm
    rw [List.take_succ_cons, List.take_succ_cons, ha, hb]
    simp
  | case3 s h3 =>
    rwa [replace4_short _ _ _ _ _ _ h3] at h

theorem replace4_take3 (p1 p2 p3 : Char) (s : List Char) (x y z : Char)
    (hx : x ≠ '.') (hy : y ≠ '.')
    (h : (replace4 '.' p1 p2 p3 objRepl s).take 3 = [x, y, z]) : s.take 3 = [x, y, z] := by
  induction s using replace4.induct '.' p1 p2 p3 objRepl with
  | case1 a b c d rest h4 ih =>
    rw [replace4, if_pos h4] at h
    simp [objRepl, List.take_succ_cons] at h
    exact absurd h.1.symm hx
  | case2 a b c d rest h4 ih =>
    rw [replace4, if_neg h4] at h
    rw [List.take_succ_cons] at h
    obtain ⟨ha, h1⟩ := List.cons_eq_cons.mp h
    have h2 := replace4_take2 p1 p2 p3 (b :: c :: d :: rest) y z hy h1
    rw [List.take_succ_cons, List.take_succ_cons] at h2
    obtain ⟨hb, h3⟩ := List.cons_eq_cons.mp h2
    obtain ⟨hc, _⟩ := List.cons_eq_cons.mp h3
    rw [List.take_succ_cons, List.take_succ_cons, List.take_succ_cons, ha, hb, hc]
    simp
  | case3 s h3 =>
    rwa [replace4_short _ _ _ _ _ _ h3] at h

theorem replace4_skip (p0 p1 p2 p3 : Char) (repl : List Char) (a : Char) (X : List Char)
    (h : a ≠ p0) :
    replace4 p0 p1 p2 p3 repl (a :: X) = a :: replace4 p0 p1 p2 p3 repl X := by
  rcases X with _ | ⟨b, _ | ⟨c, _ | ⟨d, r⟩⟩⟩
  · rfl
  · rfl
  · rfl
  · rw [replace4, if_neg (fun hh => h hh.1)]

theorem length_lt_four (s : List Char)
    (h3 : ∀ (a b c d : Char) (rest : List Char), s = a :: b :: c :: d :: rest → False) :
    s.length < 4 := by
  rcases s with _ | ⟨a, _ | ⟨b, _ | ⟨c, _ | ⟨d, rest⟩⟩⟩⟩
  · simp
  · simp
  · simp
  · simp
  · exact (h3 a b c d rest rfl).elim

theorem contains4_replace4 (p1 p2 p3 t1 t2 t3 : Char)
    (ht1o : t1 ≠ 'o') (ht1 : t1 ≠ '.') (ht2 : t2 ≠ '.') (s : List Char)
    (hyp : (t1 = p1 ∧ t2 = p2 ∧ t3 = p3) ∨ contains4 '.' t1 t2 t3 s = false) :
    contains4 '.' t1 t2 t3 (replace4 '.' p1 p2 p3 objRepl s) = false := by
  induction s using replace4.induct '.' p1 p2 p3 objRepl with
  | case1 a b c d rest h4 ih =>
    rw [replace4, if_pos h4]
    have hrest : (t1 = p1 ∧ t2 = p2 ∧ t3 = p3) ∨ contains4 '.' t1 t2 t3 rest = false := by
      rcases hyp with h | h
      · exact Or.inl h
      · exact Or.inr (contains4_tail _ _ _ _ _ _ (contains4_tail _ _ _ _ _ _
          (contains4_tail _ _ _ _ _ _ (contains4_tail _ _ _ _ _ _ h))))
    have ihr := ih hrest
    show contains4 '.' t1 t2 t3
      ('.' :: 'o' :: 'b' :: 'j' :: replace4 '.' p1 p2 p3 objRepl rest) = false
    rw [contains4_head]
    have htake : ('o' :: 'b' :: 'j' :: replace4 '.' p1 p2 p3 objRepl rest).take 3 =
        ['o', 'b', 'j'] := by
      simp [List.take_succ_cons]
    rw [htake]
    have hne : (['o', 'b', 'j'] : List Char) ≠ [t1, t2, t3] := by
      intro hh
      injection hh with hh1 _
      exact ht1o hh1.symm
    rw [decide_eq_false hne, Bool.false_or]
    rw [contains4_skip _ _ _ _ _ _ (by decide : ('o' : Char) ≠ '.'),
      contains4_skip _ _ _ _ _ _ (by decide : ('b' : Char) ≠ '.'),
      contains4_skip _ _ _ _ _ _ (by decide : ('j' : Char) ≠ '.')]
    exact ihr
  | case2 a b c d rest h4 ih =>
    rw [replace4, if_neg h4]
    have htail : (t1 = p1 ∧ t2 = p2 ∧ t3 = p3) ∨
        contains4 '.' t1 t2 t3 (b :: c :: d :: rest) = false := by
      rcases hyp with h | h
      · exact Or.inl h
      · exact Or.inr (contains4_tail _ _ _ _ _ _ h)
    have ihr := ih htail
    by_cases ha : a = '.'
    · subst ha
      rw [contains4_head, ihr, Bool.or_false]
      apply decide_eq_false
      intro htk
      have hs3 := replace4_take3 p1 p2 p3 (b :: c :: d :: rest) t1 t2 t3 ht1 ht2 htk
      rw [List.take_succ_cons, List.take_succ_cons, List.take_succ_cons,
        List.take_zero] at hs3
      have hbcd : b = t1 ∧ c = t2 ∧ d = t3 := by simpa using hs3
      obtain ⟨hb, hc, hd⟩ := hbcd
      rcases hyp with hcase | hcase
      · exact h4 ⟨rfl, hb.trans hcase.1, hc.trans hcase.2.1, hd.trans hcase.2.2⟩
      · rw [contains4] at hcase
        have hw : decide (('.' : Char) = '.' ∧ b = t1 ∧ c = t2 ∧ d = t3) = true := by
          simp [hb, hc, hd]
        rw [hw, Bool.true_or] at hcase
        simp at hcase
    · rw [contains4_skip _ _ _ _ _ _ ha]
      exact ihr
  | case3 s h3 =>
    rw [replace4_short _ _ _ _ _ _ h3]
    rcases hyp with _ | h
    · exact contains4_short _ _ _ _ _ (length_lt_four s h3)
    · exact h

theorem replace4_id (p1 p2 p3 : Char) (s : List Char)
    (h : contains4 '.' p1 p2 p3 s = false) :
    replace4 '.' p1 p2 p3 objRepl s = s := by
  induction s using replace4.induct '.' p1 p2 p3 objRepl with
  | case1 a b c d rest h4 ih =>
    rw [contains4] at h
    rw [decide_eq_true h4, Bool.true_or] at h
    simp at h
  | case2 a b c d rest h4 ih =>
    rw [replace4, if_neg h4, ih (contains4_tail _ _ _ _ _ _ h)]
  | case3 s h3 =>
    exact replace4_short _ _ _ _ _ _ h3

theorem replace4_obj_head (p1 p2 p3 : Char) (hp1 : p1 ≠ 'o') (X : List Char) :
    replace4 '.' p1 p2 p3 objRepl ('.' :: 'o' :: 'b' :: 'j' :: X) =
      '.' :: 'o' :: 'b' :: 'j' :: replace4 '.' p1 p2 p3 objRepl X := by
  rw [replace4, if_neg (fun hh => hp1 hh.2.1.symm)]
  rw [replace4_skip _ _ _ _ _ _ _ (by decide : ('o' : Char) ≠ '.'),
    replace4_skip _ _ _ _ _ _ _ (by decide : ('b' : Char) ≠ '.'),
    replace4_skip _ _ _ _ _ _ _ (by decide : ('j' : Char) ≠ '.')]

theorem replace4_cons_of_take (p0 p1 p2 p3 : Char) (repl : List Char) (a : Char)
    (X : List Char) (h : ¬(a = p0 ∧ X.take 3 = [p1, p2, p3])) :
    replace4 p0 p1 p2 p3 repl (a :: X) = a :: replace4 p0 p1 p2 p3 repl X := by
  rcases X with _ | ⟨b, _ | ⟨c, _ | ⟨d, r⟩⟩⟩
  · rfl
  · rfl
  · rfl
  · rw [replace4, if_neg (fun hh => h ⟨hh.1, by
      rw [List.take_succ_cons, List.take_succ_cons, List.take_succ_cons, List.take_zero,
        hh.2.1, hh.2.2.1, hh.2.2.2]⟩)]

theorem simulReplaceSpec_short (s : List Char)
    (h : ∀ (a b c d : Char) (rest : List Char), s = a :: b :: c :: d :: rest → False) :
    simulReplaceSpec s = s := by
  rcases s with _ | ⟨a, _ | ⟨b, _ | ⟨c, _ | ⟨d, rest⟩⟩⟩⟩
  · rfl
  · rfl
  · rfl
  · rfl
  · exact (h a b c d rest rfl).elim

theorem replaceSTL_eq_spec (s : List Char) : replaceSTLWithOBJ s = simulReplaceSpec s := by
  induction s using simulReplaceSpec.induct with
  | case1 a b c d rest hcond ih =>
    rw [simulReplaceSpec, if_pos hcond]
    by_cases hstl : a = '.' ∧ b = 's' ∧ c = 't' ∧ d = 'l'
    · rw [replaceSTLWithOBJ] at ih ⊢
      rw [show replace4 '.' 's' 't' 'l' objRepl (a :: b :: c :: d :: rest) =
          objRepl ++ replace4 '.' 's' 't' 'l' objRepl rest by
            rw [replace4, if_pos hstl]]
      rw [show (objRepl ++ replace4 '.' 's' 't' 'l' objRepl rest) =
          '.' :: 'o' :: 'b' :: 'j' :: replace4 '.' 's' 't' 'l' objRepl rest from rfl]
      rw [replace4_obj_head 'S' 'T' 'L' (by decide)]
      rw [ih]
      rfl
    · have hSTL : a = '.' ∧ b = 'S' ∧ c = 'T' ∧ d = 'L' := hcond.resolve_left hstl
      obtain ⟨ha, hb, hc, hd⟩ := hSTL
      subst ha hb hc hd
      rw [replaceSTLWithOBJ] at ih ⊢
      rw [show replace4 '.' 's' 't' 'l' objRepl ('.' :: 'S' :: 'T' :: 'L' :: rest) =
          '.' :: 'S' :: 'T' :: 'L' :: replace4 '.' 's' 't' 'l' objRepl rest by
            rw [replace4, if_neg (by intro hh; exact absurd hh.2.1 (by decide))]
            rw [replace4_skip _ _ _ _ _ _ _ (by decide : ('S' : Char) ≠ '.'),
              replace4_skip _ _ _ _ _ _ _ (by decide : ('T' : Char) ≠ '.'),
              replace4_skip _ _ _ _ _ _ _ (by decide : ('L' : Char) ≠ '.')]]
      rw [show replace4 '.' 'S' 'T' 'L' objRepl
            ('.' :: 'S' :: 'T' :: 'L' :: replace4 '.' 's' 't' 'l' objRepl rest) =
          objRepl ++ replace4 '.' 'S' 'T' 'L' objRepl
            (replace4 '.' 's' 't' 'l' objRepl rest) by
            rw [replace4, if_pos ⟨rfl, rfl, rfl, rfl⟩]]
      rw [ih]
  | case2 a b c d rest hcond ih =>
    rw [simulReplaceSpec, if_neg hcond]
    have hstl : ¬(a = '.' ∧ b = 's' ∧ c = 't' ∧ d = 'l') := fun hh => hcond (Or.inl hh)
    have hSTLn : ¬(a = '.' ∧ b = 'S' ∧ c = 'T' ∧ d = 'L') := fun hh => hcond (Or.inr hh)
    rw [replaceSTLWithOBJ] at ih ⊢
    rw [show replace4 '.' 's' 't' 'l' objRepl (a :: b :: c :: d :: rest) =
        a :: replace4 '.' 's' 't' 'l' objRepl (b :: c :: d :: rest) by
          rw [replace4, if_neg hstl]]
    have hno : ¬(a = '.' ∧
        (replace4 '.' 's' 't' 'l' objRepl (b :: c :: d :: rest)).take 3 = ['S', 'T', 'L']) := by
      rintro ⟨ha, htk⟩
      have h3 := replace4_take3 's' 't' 'l' _ 'S' 'T' 'L' (by decide) (by decide) htk
      rw [List.take_succ_cons, List.take_succ_cons, List.take_succ_cons,
        List.take_zero] at h3
      have hbcd : b = 'S' ∧ c = 'T' ∧ d = 'L' := by simpa using h3
      exact hSTLn ⟨ha, hbcd.1, hbcd.2.1, hbcd.2.2⟩
    rw [replace4_cons_of_take '.' 'S' 'T' 'L' objRepl a _ hno]
    rw [ih]
  | case3 s h3 =>
    rw [replaceSTLWithOBJ,
      replace4_short '.' 's' 't' 'l' objRepl s h3,
      replace4_short '.' 'S' 'T' 'L' objRepl s h3,
      simulReplaceSpec_short s h3]

theorem stl_replace_idem (s : List Char) :
    replaceSTLWithOBJ (replaceSTLWithOBJ s) = replaceSTLWithOBJ s := by
  have h1 : contains4 '.' 's' 't' 'l' (replaceSTLWithOBJ s) = false := by
    rw [replaceSTLWithOBJ]
    exact contains4_replace4 'S' 'T' 'L' 's' 't' 'l' (by decide) (by decide) (by decide) _
      (Or.inr (contains4_replace4 's' 't' 'l' 's' 't' 'l' (by decide) (by decide) (by decide)
        s (Or.inl ⟨rfl, rfl, rfl⟩)))
  have h2 : contains4 '.' 'S' 'T' 'L' (replaceSTLWithOBJ s) = false := by
    rw [replaceSTLWithOBJ]
    exact contains4_replace4 'S' 'T' 'L' 'S' 'T' 'L' (by decide) (by decide) (by decide) _
      (Or.inl ⟨rfl, rfl, rfl⟩)
  rw [show replaceSTLWithOBJ (replaceSTLWithOBJ s) =
      replace4 '.' 'S' 'T' 'L' objRepl
        (replace4 '.' 's' 't' 'l' objRepl (replaceSTLWithOBJ s)) from rfl]
  rw [replace4_id 's' 't' 'l' _ h1, replace4_id 'S' 'T' 'L' _ h2]

theorem replace4_length (p0 p1 p2 p3 : Char) (repl : List Char) (hr : repl.length = 4)
    (s : List Char) : (replace4 p0 p1 p2 p3 repl s).length = s.length := by
  induction s using replace4.induct p0 p1 p2 p3 repl with
  | case1 a b c d rest h ih =>
    rw [replace4, if_pos h]
    simp [hr, ih]
    omega
  | case2 a b c d rest h ih =>
    rw [replace4, if_neg h]
    simp [ih]
  | case3 s h =>
    rw [replace4_short p0 p1 p2 p3 repl s h]

/-! ### Mid-level helpers for the claim theorems -/

/-- Joints of a group are identified by their name: two active joint
models with the same name are the same record. -/
def nodupNames (g : JointModelGroup) : Prop :=
  ∀ jm1 ∈ g.activeJointModels, ∀ jm2 ∈ g.activeJointModels,
    jm1.name = jm2.name → jm1 = jm2

theorem groupWrite_getD {α : Type} (g : JointModelGroup) (p : Plant)
    (guard : JointModel → Bool) (val : JointModel → α) (n : ℕ) (d0 d : α)
    (jm : JointModel) (hmem : jm ∈ g.activeJointModels) (hg : guard jm = true)
    (hlt : p.ordinalOf jm.name < n)
    (hinj : ∀ jm1 ∈ g.activeJointModels, ∀ jm2 ∈ g.activeJointModels,
      p.ordinalOf jm1.name = p.ordinalOf jm2.name → jm1.name = jm2.name)
    (hval : ∀ jm2 ∈ g.activeJointModels, jm2.name = jm.name → val jm2 = val jm) :
    (g.activeJointModels.foldl
      (writeStep guard (fun j => p.ordinalOf j.name) val)
      (List.replicate n d0)).getD (p.ordinalOf jm.name) d = val jm := by
  exact writeFold_getD_written guard (fun j => p.ordinalOf j.name) val
    g.activeJointModels (List.replicate n d0) d jm hmem hg
    (by simpa using hlt)
    (fun jm2 hm2 _ hk2 => hval jm2 hm2 (hinj jm2 hm2 jm hmem hk2))

theorem groupWrite_getD_default {α : Type} (g : JointModelGroup) (p : Plant)
    (guard : JointModel → Bool) (val : JointModel → α) (n : ℕ) (d0 d : α)
    (i : ℕ) (hi : i < n)
    (hnw : ∀ jm ∈ g.activeJointModels, guard jm = true → p.ordinalOf jm.name ≠ i) :
    (g.activeJointModels.foldl
      (writeStep guard (fun j => p.ordinalOf j.name) val)
      (List.replicate n d0)).getD i d = d0 := by
  rw [writeFold_getD_not_written guard (fun j => p.ordinalOf j.name) val
    g.activeJointModels (List.replicate n d0) i d hnw]
  exact getD_replicate n i d0 d hi

theorem mkWaypoint_delta (valueAt derivAt : ℚ → List ℚ) (endTime : ℚ) (n : ℕ)
    (g : JointModelGroup) (plant : Plant) (i : ℕ) (tPrev : ℚ) :
    (mkWaypoint valueAt derivAt endTime n g plant i tPrev).delta =
      sampleTime endTime n i - tPrev := rfl

theorem range_getD (n j : ℕ) (h : j < n) : (List.range n).getD j 0 = j := by
  rw [List.getD_eq_getElem?_getD, List.getElem?_range h]
  rfl

theorem range_getLast (n : ℕ) (h : 0 < n) : (List.range n).getLast? = some (n - 1) := by
  rw [List.getLast?_eq_getElem?, List.length_range,
    List.getElem?_range (by omega : n - 1 < n)]

theorem numPts_ge_two (endTime deltaT : ℚ) (hd : 0 < deltaT) (he : 0 < endTime) :
    2 ≤ numPts endTime deltaT := by
  unfold numPts
  have hq : 0 < endTime / deltaT := div_pos he hd
  have hc : 1 ≤ ⌈endTime / deltaT⌉ := by
    exact Int.one_le_ceil_iff.mpr hq
  omega

theorem sampleTime_last (endTime : ℚ) (n : ℕ) (hn : 2 ≤ n) :
    sampleTime endTime n (n - 1) = endTime := by
  unfold sampleTime
  have hne : ((n - 1 : ℕ) : ℚ) ≠ 0 := by
    have : n - 1 ≠ 0 := by omega
    exact Nat.cast_ne_zero.mpr this
  rw [div_self hne, min_self, one_mul]

theorem sampleTime_zero (endTime : ℚ) (n : ℕ) (hn : 2 ≤ n) :
    sampleTime endTime n 0 = 0 := by
  unfold sampleTime
  have hge : (0 : ℚ) ≤ ((n - 1 : ℕ) : ℚ) := by positivity
  rw [Nat.cast_zero, zero_div]
  have : min (0 : ℚ) 1 = 0 := by norm_num
  rw [this, zero_mul]

theorem tSampleD_fin (e : ℚ) (n i : ℕ) (hn : 1 < n) :
    tSampleD (D.fin e) n i = D.fin (min ((i : ℚ) / ((n - 1 : ℕ) : ℚ)) 1 * e) := by
  have hne : ((n - 1 : ℕ) : ℚ) ≠ 0 := by
    have : n - 1 ≠ 0 := by omega
    exact Nat.cast_ne_zero.mpr this
  unfold tSampleD tScaleD
  rw [show D.div (D.fin (i : ℚ)) (D.fin ((n - 1 : ℕ) : ℚ)) =
      D.fin ((i : ℚ) / ((n - 1 : ℕ) : ℚ)) by
    rw [D.div, if_neg hne]]
  rw [show D.stdmin (D.fin ((i : ℚ) / ((n - 1 : ℕ) : ℚ))) (D.fin 1) =
      D.fin (min ((i : ℚ) / ((n - 1 : ℕ) : ℚ)) 1) by
    unfold D.stdmin
    by_cases h1 : (1 : ℚ) < (i : ℚ) / ((n - 1 : ℕ) : ℚ)
    · rw [show D.blt (D.fin 1) (D.fin ((i : ℚ) / ((n - 1 : ℕ) : ℚ))) = true by
        rw [D.blt]
        exact decide_eq_true h1]
      rw [if_pos rfl, min_eq_right (le_of_lt h1)]
    · rw [show D.blt (D.fin 1) (D.fin ((i : ℚ) / ((n - 1 : ℕ) : ℚ))) = false by
        rw [D.blt]
        exact decide_eq_false h1]
      rw [if_neg (by simp), min_eq_left (not_lt.mp h1)]]
  rw [D.mul]

/-! ### Concrete fixtures -/

/-- A single-DoF joint `"j1"` with no position/acceleration/jerk bounds and
a declared velocity bound `[-1, 1]`. -/
def jmJ1 : JointModel :=
  { name := "j1"
    position_bounded := false
    min_position := 0
    max_position := 0
    velocity_bounded := true
    min_velocity := -1
    max_velocity := 1
    acceleration_bounded := false
    min_acceleration := 0
    max_acceleration := 0
    jerk_bounded := false
    min_jerk := 0
    max_jerk := 0 }

/-- The group holding just `jmJ1`. -/
def groupJ1 : JointModelGroup := ⟨[jmJ1]⟩

/-- A plant with one position and one velocity, `"j1"` at ordinal `0`. -/
def plantOne : Plant := ⟨1, 1, fun _ => 0⟩

/-- A plant with two positions and two velocities: `"j1"` at ordinal `0`,
every other name at ordinal `1`.  Its capacity strictly exceeds the
group's joint count. -/
def plantTwo : Plant := ⟨2, 2, fun n => if n = "j1" then 0 else 1⟩

/-- A robot state whose every position variable is `q` (velocities `0`). -/
def stP (q : ℚ) : RobotState := ⟨fun _ => q, fun _ => 0⟩

/-- The spec's fit example: waypoints `(t=0, pos=0)` and `(t=2, pos=2)`. -/
def trajC2 : RobotTrajectoryIn := ⟨[(0, stP 0), (2, stP 2)]⟩

/-- The fitted first-order hold of `trajC2`. -/
def ppC2 : PiecewiseFOH := getPiecewisePolynomial trajC2 groupJ1 plantOne

/-! ### Claim theorems -/

/-- C1, counterexample: with the consistent pairing `groupJ1`/`plantTwo`
(capacity 2, one active joint at ordinal 0), unpacking the vector `[5, 7]`
and packing it again yields `[5, 0] ≠ [5, 7]`: unpack-then-pack is not the
identity on dense vectors, because non-mapped ordinals are zeroed. -/
theorem pack_unpack_not_inverse_cex :
    consistentPos groupJ1 plantTwo ∧
    getJointPositionVector (unpackState [5, 7] [5, 7] plantTwo) groupJ1 plantTwo
      = [5, 0] ∧
    getJointPositionVector (unpackState [5, 7] [5, 7] plantTwo) groupJ1 plantTwo
      ≠ [5, 7] := by
  refine ⟨⟨?_, ?_⟩, by decide, by decide⟩
  · decide
  · decide

/-- C1 (amended): for any consistent group/space pairing, pack then unpack
is the identity on the group's active joints (positions and velocities),
and unpack then pack reproduces a vector exactly at the ordinals mapped
from active joints while zeroing every non-mapped ordinal. -/
theorem pack_unpack_roundtrip (s : RobotState) (v : List ℚ) (g : JointModelGroup)
    (p : Plant) (hp : consistentPos g p) (hv : consistentVel g p) :
    (∀ jm ∈ g.activeJointModels,
      (unpackState (getJointPositionVector s g p) (getJointVelocityVector s g p)
        p).positionOf jm.name = s.positionOf jm.name) ∧
    (∀ jm ∈ g.activeJointModels,
      (unpackState (getJointPositionVector s g p) (getJointVelocityVector s g p)
        p).velocityOf jm.name = s.velocityOf jm.name) ∧
    (∀ jm ∈ g.activeJointModels,
      (getJointPositionVector (unpackState v v p) g p).getD (p.ordinalOf jm.name) 0 =
        v.getD (p.ordinalOf jm.name) 0) ∧
    (∀ i < p.num_positions, (∀ jm ∈ g.activeJointModels, p.ordinalOf jm.name ≠ i) →
      (getJointPositionVector (unpackState v v p) g p).getD i 0 = 0) := by
  refine ⟨?_, ?_, ?_, ?_⟩
  · intro jm hm
    exact groupWrite_getD g p _ _ _ _ _ jm hm rfl (hp.1 jm hm) hp.2
      (fun jm2 _ hname => by rw [hname])
  · intro jm hm
    exact groupWrite_getD g p _ _ _ _ _ jm hm rfl (hv.1 jm hm) hv.2
      (fun jm2 _ hname => by rw [hname])
  · intro jm hm
    exact groupWrite_getD g p _ _ _ _ _ jm hm rfl (hp.1 jm hm) hp.2
      (fun jm2 _ hname => by rw [unpackState, hname])
  · intro i hi hnw
    exact groupWrite_getD_default g p _ _ _ _ _ i hi
      (fun jm hm _ => hnw jm hm)

/-- C1 witness: the round trip at a concrete state, vector and pairing. -/
theorem pack_unpack_roundtrip_witness :
    (∀ jm ∈ groupJ1.activeJointModels,
      (unpackState (getJointPositionVector (stP 3) groupJ1 plantTwo)
        (getJointVelocityVector (stP 3) groupJ1 plantTwo)
        plantTwo).positionOf jm.name = (stP 3).positionOf jm.name) ∧
    (∀ jm ∈ groupJ1.activeJointModels,
      (unpackState (getJointPositionVector (stP 3) groupJ1 plantTwo)
        (getJointVelocityVector (stP 3) groupJ1 plantTwo)
        plantTwo).velocityOf jm.name = (stP 3).velocityOf jm.name) ∧
    (∀ jm ∈ groupJ1.activeJointModels,
      (getJointPositionVector (unpackState [5, 7] [5, 7] plantTwo) groupJ1
        plantTwo).getD (plantTwo.ordinalOf jm.name) 0 =
        [5, 7].getD (plantTwo.ordinalOf jm.name) 0) ∧
    (∀ i < plantTwo.num_positions,
      (∀ jm ∈ groupJ1.activeJointModels, plantTwo.ordinalOf jm.name ≠ i) →
      (getJointPositionVector (unpackState [5, 7] [5, 7] plantTwo) groupJ1
        plantTwo).getD i 0 = 0) :=
  pack_unpack_roundtrip (stP 3) [5, 7] groupJ1 plantTwo
    ⟨by decide, by decide⟩ ⟨by decide, by decide⟩

/-- C8: for any consistent pairing, the packed position (velocity) vector
has length equal to the plant's position (velocity) capacity, holds each
active joint's state variable at the joint's ordinal, and is exactly `0`
at every ordinal not mapped from an active joint. -/
theorem pack_vector_spec (s : RobotState) (g : JointModelGroup) (p : Plant)
    (hp : consistentPos g p) (hv : consistentVel g p) :
    (getJointPositionVector s g p).length = p.num_positions ∧
    (∀ jm ∈ g.activeJointModels,
      (getJointPositionVector s g p).getD (p.ordinalOf jm.name) 0 =
        s.positionOf jm.name) ∧
    (∀ i < p.num_positions, (∀ jm ∈ g.activeJointModels, p.ordinalOf jm.name ≠ i) →
      (getJointPositionVector s g p).getD i 0 = 0) ∧
    (getJointVelocityVector s g p).length = p.num_velocities ∧
    (∀ jm ∈ g.activeJointModels,
      (getJointVelocityVector s g p).getD (p.ordinalOf jm.name) 0 =
        s.velocityOf jm.name) ∧
    (∀ i < p.num_velocities, (∀ jm ∈ g.activeJointModels, p.ordinalOf jm.name ≠ i) →
      (getJointVelocityVector s g p).getD i 0 = 0) := by
  refine ⟨?_, ?_, ?_, ?_, ?_, ?_⟩
  · rw [getJointPositionVector, writeFold_length]
    simp
  · intro jm hm
    exact groupWrite_getD g p _ _ _ _ _ jm hm rfl (hp.1 jm hm) hp.2
      (fun jm2 _ hname => by rw [hname])
  · intro i hi hnw
    exact groupWrite_getD_default g p _ _ _ _ _ i hi (fun jm hm _ => hnw jm hm)
  · rw [getJointVelocityVector, writeFold_length]
    simp
  · intro jm hm
    exact groupWrite_getD g p _ _ _ _ _ jm hm rfl (hv.1 jm hm) hv.2
      (fun jm2 _ hname => by rw [hname])
  · intro i hi hnw
    exact groupWrite_getD_default g p _ _ _ _ _ i hi (fun jm hm _ => hnw jm hm)

/-- C8 witness: the packed vectors at a concrete state and pairing. -/
theorem pack_vector_spec_witness :
    (getJointPositionVector (stP 3) groupJ1 plantTwo).length =
      plantTwo.num_positions ∧
    (∀ jm ∈ groupJ1.activeJointModels,
      (getJointPositionVector (stP 3) groupJ1 plantTwo).getD
        (plantTwo.ordinalOf jm.name) 0 = (stP 3).positionOf jm.name) ∧
    (∀ i < plantTwo.num_positions,
      (∀ jm ∈ groupJ1.activeJointModels, plantTwo.ordinalOf jm.name ≠ i) →
      (getJointPositionVector (stP 3) groupJ1 plantTwo).getD i 0 = 0) ∧
    (getJointVelocityVector (stP 3) groupJ1 plantTwo).length =
      plantTwo.num_velocities ∧
    (∀ jm ∈ groupJ1.activeJointModels,
      (getJointVelocityVector (stP 3) groupJ1 plantTwo).getD
        (plantTwo.ordinalOf jm.name) 0 = (stP 3).velocityOf jm.name) ∧
    (∀ i < plantTwo.num_velocities,
      (∀ jm ∈ groupJ1.activeJointModels, plantTwo.ordinalOf jm.name ≠ i) →
      (getJointVelocityVector (stP 3) groupJ1 plantTwo).getD i 0 = 0) :=
  pack_vector_spec (stP 3) groupJ1 plantTwo
    ⟨by decide, by decide⟩ ⟨by decide, by decide⟩

/-- C3, counterexample: `jmJ1` has `position_bounded_ = false`, the
pairing is consistent, yet the extracted lower/upper position bounds at
its ordinal are the finite extreme doubles `lowest()`/`max()`, not
`-∞`/`+∞` as the claim states. -/
theorem position_default_not_infinite_cex :
    jmJ1.position_bounded = false ∧
    consistentPos groupJ1 plantOne ∧
    (getPositionBounds groupJ1 plantOne).1.getD 0 D.nan = D.fin dblLowest ∧
    (getPositionBounds groupJ1 plantOne).2.getD 0 D.nan = D.fin dblMax ∧
    D.fin dblLowest ≠ D.ninf ∧
    D.fin dblMax ≠ D.pinf := by
  refine ⟨rfl, ⟨by decide, by decide⟩, rfl, rfl, ?_, ?_⟩
  · intro h
    exact D.noConfusion h
  · intro h
    exact D.noConfusion h

/-- C3 (amended): the bounds extractor fills every ordinal with the
category default before any overwrite — for position the finite extreme
doubles `lowest()`/`max()` (not `±∞`), for velocity, acceleration and jerk
`∓100.0` — so every active joint whose bounded-flag is unset keeps the
category default at its ordinal, and every ordinal not mapped from an
active joint holds the default. -/
theorem bounds_default_values (g : JointModelGroup) (p : Plant)
    (hp : consistentPos g p) (hv : consistentVel g p) (hn : nodupNames g) :
    (∀ jm ∈ g.activeJointModels, jm.position_bounded = false →
      (getPositionBounds g p).1.getD (p.ordinalOf jm.name) D.nan = D.fin dblLowest ∧
      (getPositionBounds g p).2.getD (p.ordinalOf jm.name) D.nan = D.fin dblMax) ∧
    (∀ jm ∈ g.activeJointModels, jm.velocity_bounded = false →
      (getVelocityBounds g p).1.getD (p.ordinalOf jm.name) D.nan =
        D.fin (-kMaxLimit) ∧
      (getVelocityBounds g p).2.getD (p.ordinalOf jm.name) D.nan = D.fin kMaxLimit) ∧
    (∀ jm ∈ g.activeJointModels, jm.acceleration_bounded = false →
      (getAccelerationBounds g p).1.getD (p.ordinalOf jm.name) D.nan =
        D.fin (-kMaxLimit) ∧
      (getAccelerationBounds g p).2.getD (p.ordinalOf jm.name) D.nan =
        D.fin kMaxLimit) ∧
    (∀ jm ∈ g.activeJointModels, jm.jerk_bounded = false →
      (getJerkBounds g p).1.getD (p.ordinalOf jm.name) D.nan = D.fin (-kMaxLimit) ∧
      (getJerkBounds g p).2.getD (p.ordinalOf jm.name) D.nan = D.fin kMaxLimit) ∧
    (∀ i < p.num_positions, (∀ jm ∈ g.activeJointModels, p.ordinalOf jm.name ≠ i) →
      (getPositionBounds g p).1.getD i D.nan = D.fin dblLowest ∧
      (getPositionBounds g p).2.getD i D.nan = D.fin dblMax) ∧
    (∀ i < p.num_velocities, (∀ jm ∈ g.activeJointModels, p.ordinalOf jm.name ≠ i) →
      (getVelocityBounds g p).1.getD i D.nan = D.fin (-kMaxLimit) ∧
      (getVelocityBounds g p).2.getD i D.nan = D.fin kMaxLimit) := by
  have hpb := foldPair_eq (fun jm => jm.position_bounded)
    (fun jm => p.ordinalOf jm.name) (fun jm => D.fin jm.min_position)
    (fun jm => D.fin jm.max_position) g.activeJointModels
    (List.replicate p.num_positions (D.fin dblLowest))
    (List.replicate p.num_positions (D.fin dblMax))
  have hvb := foldPair_eq (fun jm => jm.velocity_bounded)
    (fun jm => p.ordinalOf jm.name) (fun jm => D.fin jm.min_velocity)
    (fun jm => D.fin jm.max_velocity) g.activeJointModels
    (List.replicate p.num_velocities (D.fin (-kMaxLimit)))
    (List.replicate p.num_velocities (D.fin kMaxLimit))
  have hab := foldPair_eq (fun jm => jm.acceleration_bounded)
    (fun jm => p.ordinalOf jm.name) (fun jm => D.fin jm.min_acceleration)
    (fun jm => D.fin jm.max_acceleration) g.activeJointModels
    (List.replicate p.num_velocities (D.fin (-kMaxLimit)))
    (List.replicate p.num_velocities (D.fin kMaxLimit))
  have hjb := foldPair_eq (fun jm => jm.jerk_bounded)
    (fun jm => p.ordinalOf jm.name) (fun jm => D.fin jm.min_jerk)
    (fun jm => D.fin jm.max_jerk) g.activeJointModels
    (List.replicate p.num_velocities (D.fin (-kMaxLimit)))
    (List.replicate p.num_velocities (D.fin kMaxLimit))
  have keep : ∀ (flag : JointModel → Bool) (jm : JointModel),
      jm ∈ g.activeJointModels → flag jm = false →
      ∀ jm2 ∈ g.activeJointModels, flag jm2 = true →
        p.ordinalOf jm2.name ≠ p.ordinalOf jm.name := by
    intro flag jm hm hf jm2 hm2 hf2 hord
    have hname := hp.2 jm2 hm2 jm hm hord
    have : jm2 = jm := hn jm2 hm2 jm hm hname
    rw [this, hf] at hf2
    exact Bool.noConfusion hf2
  refine ⟨?_, ?_, ?_, ?_, ?_, ?_⟩
  · intro jm hm hf
    rw [getPositionBounds, hpb]
    constructor
    · exact groupWrite_getD_default g p _ _ _ _ _ _ (hp.1 jm hm)
        (keep _ jm hm hf)
    · exact groupWrite_getD_default g p _ _ _ _ _ _ (hp.1 jm hm)
        (keep _ jm hm hf)
  · intro jm hm hf
    rw [getVelocityBounds, hvb]
    constructor
    · exact groupWrite_getD_default g p _ _ _ _ _ _ (hv.1 jm hm)
        (keep _ jm hm hf)
    · exact groupWrite_getD_default g p _ _ _ _ _ _ (hv.1 jm hm)
        (keep _ jm hm hf)
  · intro jm hm hf
    rw [getAccelerationBounds, hab]
    constructor
    · exact groupWrite_getD_default g p _ _ _ _ _ _ (hv.1 jm hm)
        (keep _ jm hm hf)
    · exact groupWrite_getD_default g p _ _ _ _ _ _ (hv.1 jm hm)
        (keep _ jm hm hf)
  · intro jm hm hf
    rw [getJerkBounds, hjb]
    constructor
    · exact groupWrite_getD_default g p _ _ _ _ _ _ (hv.1 jm hm)
        (keep _ jm hm hf)
    · exact groupWrite_getD_default g p _ _ _ _ _ _ (hv.1 jm hm)
        (keep _ jm hm hf)
  · intro i hi hnw
    rw [getPositionBounds, hpb]
    exact ⟨groupWrite_getD_default g p _ _ _ _ _ i hi (fun jm hm _ => hnw jm hm),
      groupWrite_getD_default g p _ _ _ _ _ i hi (fun jm hm _ => hnw jm hm)⟩
  · intro i hi hnw
    rw [getVelocityBounds, hvb]
    exact ⟨groupWrite_getD_default g p _ _ _ _ _ i hi (fun jm hm _ => hnw jm hm),
      groupWrite_getD_default g p _ _ _ _ _ i hi (fun jm hm _ => hnw jm hm)⟩

/-- C3 witness: the defaults at the concrete pairing `groupJ1`/`plantOne`
(every flag of `jmJ1` except velocity is unset). -/
theorem bounds_default_values_witness :
    (∀ jm ∈ groupJ1.activeJointModels, jm.position_bounded = false →
      (getPositionBounds groupJ1 plantOne).1.getD (plantOne.ordinalOf jm.name) D.nan
        = D.fin dblLowest ∧
      (getPositionBounds groupJ1 plantOne).2.getD (plantOne.ordinalOf jm.name) D.nan
        = D.fin dblMax) ∧
    (∀ jm ∈ groupJ1.activeJointModels, jm.velocity_bounded = false →
      (getVelocityBounds groupJ1 plantOne).1.getD (plantOne.ordinalOf jm.name) D.nan
        = D.fin (-kMaxLimit) ∧
      (getVelocityBounds groupJ1 plantOne).2.getD (plantOne.ordinalOf jm.name) D.nan
        = D.fin kMaxLimit) ∧
    (∀ jm ∈ groupJ1.activeJointModels, jm.acceleration_bounded = false →
      (getAccelerationBounds groupJ1 plantOne).1.getD (plantOne.ordinalOf jm.name)
        D.nan = D.fin (-kMaxLimit) ∧
      (getAccelerationBounds groupJ1 plantOne).2.getD (plantOne.ordinalOf jm.name)
        D.nan = D.fin kMaxLimit) ∧
    (∀ jm ∈ groupJ1.activeJointModels, jm.jerk_bounded = false →
      (getJerkBounds groupJ1 plantOne).1.getD (plantOne.ordinalOf jm.name) D.nan
        = D.fin (-kMaxLimit) ∧
      (getJerkBounds groupJ1 plantOne).2.getD (plantOne.ordinalOf jm.name) D.nan
        = D.fin kMaxLimit) ∧
    (∀ i < plantOne.num_positions,
      (∀ jm ∈ groupJ1.activeJointModels, plantOne.ordinalOf jm.name ≠ i) →
      (getPositionBounds groupJ1 plantOne).1.getD i D.nan = D.fin dblLowest ∧
      (getPositionBounds groupJ1 plantOne).2.getD i D.nan = D.fin dblMax) ∧
    (∀ i < plantOne.num_velocities,
      (∀ jm ∈ groupJ1.activeJointModels, plantOne.ordinalOf jm.name ≠ i) →
      (getVelocityBounds groupJ1 plantOne).1.getD i D.nan = D.fin (-kMaxLimit) ∧
      (getVelocityBounds groupJ1 plantOne).2.getD i D.nan = D.fin kMaxLimit) :=
  bounds_default_values groupJ1 plantOne ⟨by decide, by decide⟩
    ⟨by decide, by decide⟩
    (by
      intro jm1 h1 jm2 h2 _
      simp only [groupJ1, List.mem_singleton] at h1 h2
      rw [h1, h2])

/-- C9: per quantity independently, a flagged active joint has its declared
min/max written at its ordinal in the lower/upper vectors, while an
unflagged joint keeps the category default there; each quantity's output
is determined by that quantity's descriptor fields alone. -/
theorem bounds_flag_overwrite (g : JointModelGroup) (p : Plant)
    (hp : consistentPos g p) (hv : consistentVel g p) (hn : nodupNames g) :
    ∀ jm ∈ g.activeJointModels,
      (jm.position_bounded = true →
        (getPositionBounds g p).1.getD (p.ordinalOf jm.name) D.nan =
          D.fin jm.min_position ∧
        (getPositionBounds g p).2.getD (p.ordinalOf jm.name) D.nan =
          D.fin jm.max_position) ∧
      (jm.position_bounded = false →
        (getPositionBounds g p).1.getD (p.ordinalOf jm.name) D.nan =
          D.fin dblLowest ∧
        (getPositionBounds g p).2.getD (p.ordinalOf jm.name) D.nan =
          D.fin dblMax) ∧
      (jm.velocity_bounded = true →
        (getVelocityBounds g p).1.getD (p.ordinalOf jm.name) D.nan =
          D.fin jm.min_velocity ∧
        (getVelocityBounds g p).2.getD (p.ordinalOf jm.name) D.nan =
          D.fin jm.max_velocity) ∧
      (jm.velocity_bounded = false →
        (getVelocityBounds g p).1.getD (p.ordinalOf jm.name) D.nan =
          D.fin (-kMaxLimit) ∧
        (getVelocityBounds g p).2.getD (p.ordinalOf jm.name) D.nan =
          D.fin kMaxLimit) ∧
      (jm.acceleration_bounded = true →
        (getAccelerationBounds g p).1.getD (p.ordinalOf jm.name) D.nan =
          D.fin jm.min_acceleration ∧
        (getAccelerationBounds g p).2.getD (p.ordinalOf jm.name) D.nan =
          D.fin jm.max_acceleration) ∧
      (jm.acceleration_bounded = false →
        (getAccelerationBounds g p).1.getD (p.ordinalOf jm.name) D.nan =
          D.fin (-kMaxLimit) ∧
        (getAccelerationBounds g p).2.getD (p.ordinalOf jm.name) D.nan =
          D.fin kMaxLimit) ∧
      (jm.jerk_bounded = true →
        (getJerkBounds g p).1.getD (p.ordinalOf jm.name) D.nan =
          D.fin jm.min_jerk ∧
        (getJerkBounds g p).2.getD (p.ordinalOf jm.name) D.nan =
          D.fin jm.max_jerk) ∧
      (jm.jerk_bounded = false →
        (getJerkBounds g p).1.getD (p.ordinalOf jm.name) D.nan =
          D.fin (-kMaxLimit) ∧
        (getJerkBounds g p).2.getD (p.ordinalOf jm.name) D.nan =
          D.fin kMaxLimit) := by
  intro jm hm
  have keep : ∀ (flag : JointModel → Bool), flag jm = false →
      ∀ jm2 ∈ g.activeJointModels, flag jm2 = true →
        p.ordinalOf jm2.name ≠ p.ordinalOf jm.name := by
    intro flag hf jm2 hm2 hf2 hord
    have hname := hp.2 jm2 hm2 jm hm hord
    have : jm2 = jm := hn jm2 hm2 jm hm hname
    rw [this, hf] at hf2
    exact Bool.noConfusion hf2
  have heq : ∀ (flag : JointModel → Bool) (f : JointModel → ℚ),
      ∀ jm2 ∈ g.activeJointModels, flag jm2 = true →
        p.ordinalOf jm2.name = p.ordinalOf jm.name →
        D.fin (f jm2) = D.fin (f jm) := by
    intro flag f jm2 hm2 _ hord
    have hname := hp.2 jm2 hm2 jm hm hord
    rw [hn jm2 hm2 jm hm hname]
  have hpb := foldPair_eq (fun j => j.position_bounded)
    (fun j => p.ordinalOf j.name) (fun j => D.fin j.min_position)
    (fun j => D.fin j.max_position) g.activeJointModels
    (List.replicate p.num_positions (D.fin dblLowest))
    (List.replicate p.num_positions (D.fin dblMax))
  have hvb := foldPair_eq (fun j => j.velocity_bounded)
    (fun j => p.ordinalOf j.name) (fun j => D.fin j.min_velocity)
    (fun j => D.fin j.max_velocity) g.activeJointModels
    (List.replicate p.num_velocities (D.fin (-kMaxLimit)))
    (List.replicate p.num_velocities (D.fin kMaxLimit))
  have hab := foldPair_eq (fun j => j.acceleration_bounded)
    (fun j => p.ordinalOf j.name) (fun j => D.fin j.min_acceleration)
    (fun j => D.fin j.max_acceleration) g.activeJointModels
    (List.replicate p.num_velocities (D.fin (-kMaxLimit)))
    (List.replicate p.num_velocities (D.fin kMaxLimit))
  have hjb := foldPair_eq (fun j => j.jerk_bounded)
    (fun j => p.ordinalOf j.name) (fun j => D.fin j.min_jerk)
    (fun j => D.fin j.max_jerk) g.activeJointModels
    (List.replicate p.num_velocities (D.fin (-kMaxLimit)))
    (List.replicate p.num_velocities (D.fin kMaxLimit))
  refine ⟨?_, ?_, ?_, ?_, ?_, ?_, ?_, ?_⟩
  · intro hf
    rw [getPositionBounds, hpb]
    exact ⟨writeFold_getD_written _ _ _ _ _ _ jm hm hf (by simpa using hp.1 jm hm)
        (fun jm2 hm2 hf2 hk2 => heq _ _ jm2 hm2 hf2 hk2),
      writeFold_getD_written _ _ _ _ _ _ jm hm hf (by simpa using hp.1 jm hm)
        (fun jm2 hm2 hf2 hk2 => heq _ _ jm2 hm2 hf2 hk2)⟩
  · intro hf
    rw [getPositionBounds, hpb]
    exact ⟨groupWrite_getD_default g p _ _ _ _ _ _ (hp.1 jm hm) (keep _ hf),
      groupWrite_getD_default g p _ _ _ _ _ _ (hp.1 jm hm) (keep _ hf)⟩
  · intro hf
    rw [getVelocityBounds, hvb]
    exact ⟨writeFold_getD_written _ _ _ _ _ _ jm hm hf (by simpa using hv.1 jm hm)
        (fun jm2 hm2 hf2 hk2 => heq _ _ jm2 hm2 hf2 hk2),
      writeFold_getD_written _ _ _ _ _ _ jm hm hf (by simpa using hv.1 jm hm)
        (fun jm2 hm2 hf2 hk2 => heq _ _ jm2 hm2 hf2 hk2)⟩
  · intro hf
    rw [getVelocityBounds, hvb]
    exact ⟨groupWrite_getD_default g p _ _ _ _ _ _ (hv.1 jm hm) (keep _ hf),
      groupWrite_getD_default g p _ _ _ _ _ _ (hv.1 jm hm) (keep _ hf)⟩
  · intro hf
    rw [getAccelerationBounds, hab]
    exact ⟨writeFold_getD_written _ _ _ _ _ _ jm hm hf (by simpa using hv.1 jm hm)
        (fun jm2 hm2 hf2 hk2 => heq _ _ jm2 hm2 hf2 hk2),
      writeFold_getD_written _ _ _ _ _ _ jm hm hf (by simpa using hv.1 jm hm)
        (fun jm2 hm2 hf2 hk2 => heq _ _ jm2 hm2 hf2 hk2)⟩
  · intro hf
    rw [getAccelerationBounds, hab]
    exact ⟨groupWrite_getD_default g p _ _ _ _ _ _ (hv.1 jm hm) (keep _ hf),
      groupWrite_getD_default g p _ _ _ _ _ _ (hv.1 jm hm) (keep _ hf)⟩
  · intro hf
    rw [getJerkBounds, hjb]
    exact ⟨writeFold_getD_written _ _ _ _ _ _ jm hm hf (by simpa using hv.1 jm hm)
        (fun jm2 hm2 hf2 hk2 => heq _ _ jm2 hm2 hf2 hk2),
      writeFold_getD_written _ _ _ _ _ _ jm hm hf (by simpa using hv.1 jm hm)
        (fun jm2 hm2 hf2 hk2 => heq _ _ jm2 hm2 hf2 hk2)⟩
  · intro hf
    rw [getJerkBounds, hjb]
    exact ⟨groupWrite_getD_default g p _ _ _ _ _ _ (hv.1 jm hm) (keep _ hf),
      groupWrite_getD_default g p _ _ _ _ _ _ (hv.1 jm hm) (keep _ hf)⟩

/-- C9 witness: the flag-gated overwrite at the concrete joint `jmJ1`
(velocity flagged with declared bounds `[-1, 1]`, the rest unflagged). -/
theorem bounds_flag_overwrite_witness :
    (jmJ1.position_bounded = true →
      (getPositionBounds groupJ1 plantOne).1.getD (plantOne.ordinalOf jmJ1.name) D.nan =
        D.fin jmJ1.min_position ∧
      (getPositionBounds groupJ1 plantOne).2.getD (plantOne.ordinalOf jmJ1.name) D.nan =
        D.fin jmJ1.max_position) ∧
    (jmJ1.position_bounded = false →
      (getPositionBounds groupJ1 plantOne).1.getD (plantOne.ordinalOf jmJ1.name) D.nan =
        D.fin dblLowest ∧
      (getPositionBounds groupJ1 plantOne).2.getD (plantOne.ordinalOf jmJ1.name) D.nan =
        D.fin dblMax) ∧
    (jmJ1.velocity_bounded = true →
      (getVelocityBounds groupJ1 plantOne).1.getD (plantOne.ordinalOf jmJ1.name) D.nan =
        D.fin jmJ1.min_velocity ∧
      (getVelocityBounds groupJ1 plantOne).2.getD (plantOne.ordinalOf jmJ1.name) D.nan =
        D.fin jmJ1.max_velocity) ∧
    (jmJ1.velocity_bounded = false →
      (getVelocityBounds groupJ1 plantOne).1.getD (plantOne.ordinalOf jmJ1.name) D.nan =
        D.fin (-kMaxLimit) ∧
      (getVelocityBounds groupJ1 plantOne).2.getD (plantOne.ordinalOf jmJ1.name) D.nan =
        D.fin kMaxLimit) ∧
    (jmJ1.acceleration_bounded = true →
      (getAccelerationBounds groupJ1 plantOne).1.getD (plantOne.ordinalOf jmJ1.name)
        D.nan = D.fin jmJ1.min_acceleration ∧
      (getAccelerationBounds groupJ1 plantOne).2.getD (plantOne.ordinalOf jmJ1.name)
        D.nan = D.fin jmJ1.max_acceleration) ∧
    (jmJ1.acceleration_bounded = false →
      (getAccelerationBounds groupJ1 plantOne).1.getD (plantOne.ordinalOf jmJ1.name)
        D.nan = D.fin (-kMaxLimit) ∧
      (getAccelerationBounds groupJ1 plantOne).2.getD (plantOne.ordinalOf jmJ1.name)
        D.nan = D.fin kMaxLimit) ∧
    (jmJ1.jerk_bounded = true →
      (getJerkBounds groupJ1 plantOne).1.getD (plantOne.ordinalOf jmJ1.name) D.nan =
        D.fin jmJ1.min_jerk ∧
      (getJerkBounds groupJ1 plantOne).2.getD (plantOne.ordinalOf jmJ1.name) D.nan =
        D.fin jmJ1.max_jerk) ∧
    (jmJ1.jerk_bounded = false →
      (getJerkBounds groupJ1 plantOne).1.getD (plantOne.ordinalOf jmJ1.name) D.nan =
        D.fin (-kMaxLimit) ∧
      (getJerkBounds groupJ1 plantOne).2.getD (plantOne.ordinalOf jmJ1.name) D.nan =
        D.fin kMaxLimit) :=
  bounds_flag_overwrite groupJ1 plantOne ⟨by decide, by decide⟩
    ⟨by decide, by decide⟩
    (by
      intro jm1 h1 jm2 h2 _
      simp only [groupJ1, List.mem_singleton] at h1 h2
      rw [h1, h2])
    jmJ1 (by decide)

/-- C5: the resampling loop appends exactly
`N = static_cast<size_t>(ceil(end_time / delta_t) + 1)` waypoints; in
particular `end_time = 1.0` with `delta_t = 0.3` gives `N = 5`. -/
theorem sample_count (valueAt derivAt : ℚ → List ℚ) (g : JointModelGroup)
    (p : Plant) (endTime deltaT : ℚ) (hd : 0 < deltaT) (he : 0 ≤ endTime) :
    (getRobotTrajectory valueAt derivAt endTime deltaT g p).length =
      (⌈endTime / deltaT⌉ + 1).toNat ∧
    (getRobotTrajectory valueAt derivAt 1 (3 / 10) g p).length = 5 := by
  constructor
  · rw [getRobotTrajectory, resampleFold_fst]
    rw [List.nil_append, deltaSeq_length, List.length_range]
    rfl
  · rw [getRobotTrajectory, resampleFold_fst]
    rw [List.nil_append, deltaSeq_length, List.length_range]
    rw [show numPts 1 (3 / 10) = (⌈(1 : ℚ) / (3 / 10)⌉ + 1).toNat from rfl]
    rw [show ⌈(1 : ℚ) / (3 / 10)⌉ = 4 by
      rw [Int.ceil_eq_iff]
      norm_num]
    rfl

/-- C5 witness: the sample count at `end_time = 1`, `delta_t = 3/10`. -/
theorem sample_count_witness :
    (getRobotTrajectory (fun _ => []) (fun _ => []) 1 (3 / 10)
      groupJ1 plantOne).length = (⌈(1 : ℚ) / (3 / 10)⌉ + 1).toNat ∧
    (getRobotTrajectory (fun _ => []) (fun _ => []) 1 (3 / 10)
      groupJ1 plantOne).length = 5 :=
  sample_count (fun _ => []) (fun _ => []) groupJ1 plantOne 1 (3 / 10)
    (by norm_num) (by norm_num)

/-- C6: the first appended elapsed-time delta is `t(0) - 0`, every later
delta is the duration since the previously appended sample, and the sum of
all appended deltas — the last sample's cumulative absolute time — equals
`end_time` exactly. -/
theorem resample_deltas (valueAt derivAt : ℚ → List ℚ) (g : JointModelGroup)
    (p : Plant) (endTime deltaT : ℚ) (hd : 0 < deltaT) (he : 0 < endTime) :
    (getRobotTrajectory valueAt derivAt endTime deltaT g p).headI.delta =
      sampleTime endTime (numPts endTime deltaT) 0 - 0 ∧
    (∀ k, k + 1 < (getRobotTrajectory valueAt derivAt endTime deltaT g p).length →
      ((getRobotTrajectory valueAt derivAt endTime deltaT g p).getD (k + 1)
        default).delta =
        sampleTime endTime (numPts endTime deltaT) (k + 1) -
          sampleTime endTime (numPts endTime deltaT) k) ∧
    ((getRobotTrajectory valueAt derivAt endTime deltaT g p).map
      (fun w => w.delta)).sum = endTime := by
  have hn2 : 2 ≤ numPts endTime deltaT := numPts_ge_two endTime deltaT hd he
  refine ⟨?_, ?_, ?_⟩
  · rw [getRobotTrajectory, resampleFold_fst, List.nil_append]
    obtain ⟨m, hm⟩ : ∃ m, numPts endTime deltaT = m + 1 := ⟨_, (by omega :
      numPts endTime deltaT = (numPts endTime deltaT - 1) + 1)⟩
    rw [hm, List.range_succ_eq_map]
    rfl
  · intro k hk
    rw [getRobotTrajectory, resampleFold_fst, List.nil_append] at hk ⊢
    rw [deltaSeq_length, List.length_range] at hk
    rw [deltaSeq_getD_succ _ _ _ _ _ _ _ _ k (by
      rw [List.length_range]
      exact hk)]
    rw [range_getD _ _ hk, range_getD _ _ (by omega), mkWaypoint_delta]
  · rw [getRobotTrajectory, resampleFold_fst, List.nil_append]
    rw [deltaSeq_sum _ _ _ _ _ _ _ _ (numPts endTime deltaT - 1)
      (range_getLast _ (by omega))]
    rw [sampleTime_last _ _ hn2, sub_zero]

/-- C6 witness: the deltas at `end_time = 2`, `delta_t = 1`. -/
theorem resample_deltas_witness :
    (getRobotTrajectory (fun _ => []) (fun _ => []) 2 1 groupJ1
      plantOne).headI.delta = sampleTime 2 (numPts 2 1) 0 - 0 ∧
    (∀ k, k + 1 < (getRobotTrajectory (fun _ => []) (fun _ => []) 2 1 groupJ1
      plantOne).length →
      ((getRobotTrajectory (fun _ => []) (fun _ => []) 2 1 groupJ1
        plantOne).getD (k + 1) default).delta =
        sampleTime 2 (numPts 2 1) (k + 1) - sampleTime 2 (numPts 2 1) k) ∧
    ((getRobotTrajectory (fun _ => []) (fun _ => []) 2 1 groupJ1 plantOne).map
      (fun w => w.delta)).sum = 2 :=
  resample_deltas (fun _ => []) (fun _ => []) groupJ1 plantOne 2 1
    (by norm_num) (by norm_num)

/-- C2: fitting the 2-waypoint trajectory `(t=0, pos=0)`, `(t=2, pos=2)`
and resampling at `delta_t = 1` yields exactly the three waypoints
`t=0 (pos 0, vel 1)`, `t=1 (pos 1, vel 1)`, `t=2 (pos 2, vel 1)` with the
second and third deltas equal to `1`; and on any segment `[t0, t1)` of a
first-order hold, the value is the linear interpolation
`s0 + (t - t0)/(t1 - t0) * (s1 - s0)` and the derivative the constant
`(s1 - s0)/(t1 - t0)`, componentwise. -/
theorem fit_resample_example :
    getRobotTrajectory (fohValue ppC2) (fohDeriv ppC2) (fohEndTime ppC2) 1
      groupJ1 plantOne =
      [⟨0, [("j1", 0)], [("j1", 1)]⟩, ⟨1, [("j1", 1)], [("j1", 1)]⟩,
       ⟨1, [("j1", 2)], [("j1", 1)]⟩] ∧
    (∀ (bs : List ℚ) (ss : List (List ℚ)) (i : ℕ) (t : ℚ),
      (∀ k, k + 1 < bs.length → bs.getD k 0 < bs.getD (k + 1) 0) →
      i + 1 < bs.length → bs.getD i 0 ≤ t → t < bs.getD (i + 1) 0 →
      fohValue ⟨bs, ss⟩ t = List.zipWith
        (fun a b => a + (t - bs.getD i 0) / (bs.getD (i + 1) 0 - bs.getD i 0) * (b - a))
        (ss.getD i []) (ss.getD (i + 1) []) ∧
      fohDeriv ⟨bs, ss⟩ t = List.zipWith
        (fun a b => (b - a) / (bs.getD (i + 1) 0 - bs.getD i 0))
        (ss.getD i []) (ss.getD (i + 1) [])) := by
  constructor
  · have hend : fohEndTime ppC2 = 2 := rfl
    have hnum : numPts (fohEndTime ppC2) 1 = 3 := by
      rw [hend, numPts]
      norm_num
      rfl
    have hs0 : sampleTime 2 3 0 = 0 := by
      unfold sampleTime
      norm_num [min_def]
    have hs1 : sampleTime 2 3 1 = 1 := by
      unfold sampleTime
      norm_num [min_def]
    have hs2 : sampleTime 2 3 2 = 2 := by
      unfold sampleTime
      norm_num [min_def]
    have hpp : ppC2 = ⟨[0, 2], [[0], [2]]⟩ := rfl
    have hv0 : fohValue ppC2 0 = [0] := by
      rw [hpp]
      show [(0 : ℚ) + (0 - 0) / (2 - 0) * (2 - 0)] = [0]
      norm_num
    have hv1 : fohValue ppC2 1 = [1] := by
      rw [hpp]
      show [(0 : ℚ) + (1 - 0) / (2 - 0) * (2 - 0)] = [1]
      norm_num
    have hv2 : fohValue ppC2 2 = [2] := by
      rw [hpp]
      show [(0 : ℚ) + (2 - 0) / (2 - 0) * (2 - 0)] = [2]
      norm_num
    have hd0 : fohDeriv ppC2 0 = [1] := by
      rw [hpp]
      show [((2 : ℚ) - 0) / (2 - 0)] = [1]
      norm_num
    have hd1 : fohDeriv ppC2 1 = [1] := by
      rw [hpp]
      show [((2 : ℚ) - 0) / (2 - 0)] = [1]
      norm_num
    have hd2 : fohDeriv ppC2 2 = [1] := by
      rw [hpp]
      show [((2 : ℚ) - 0) / (2 - 0)] = [1]
      norm_num
    rw [getRobotTrajectory, hnum, hend, resampleFold_fst, List.nil_append]
    rw [show List.range 3 = [0, 1, 2] from rfl]
    simp only [deltaSeq, mkWaypoint, hs0, hs1, hs2]
    rw [hv0, hv1, hv2, hd0, hd1, hd2]
    norm_num [groupJ1, jmJ1, plantOne, List.getD]
  · intro bs ss i t hadj hi hlo hhi
    have hseg := segIndex_eq bs i t hadj hi hlo hhi
    constructor
    · rw [fohValue]
      rw [hseg]
    · rw [fohDeriv]
      rw [hseg]

/-- C7, counterexample: lines 223–224 never branch on `num_pts`; with
`end_time = 0` and `delta_t = 1` the code computes `num_pts = 1` and then
`t_scale = 0.0 / 0.0 = NaN` (not `0` as the claim states), and the sample
time `t = std::min(NaN, 1.0) * 0.0 = NaN` is ill-defined. -/
theorem sample_fraction_unguarded_cex :
    numPtsExpr (D.fin 0) (D.fin 1) = D.fin 1 ∧
    tScaleD 1 0 = D.nan ∧
    D.nan ≠ D.fin 0 ∧
    tSampleD (D.fin 0) 1 0 = D.nan := by
  refine ⟨?_, by decide, by decide, by decide⟩
  rw [numPtsExpr]
  rw [show D.div (D.fin 0) (D.fin 1) = D.fin (0 / 1) by
    rw [D.div, if_neg (by norm_num)]]
  rw [show (0 : ℚ) / 1 = 0 by norm_num]
  rw [show D.dceil (D.fin 0) = D.fin (⌈(0 : ℚ)⌉ : ℚ) by
    rw [D.dceil]]
  rw [show ((⌈(0 : ℚ)⌉ : ℚ)) = 0 by norm_num]
  rw [D.add]
  norm_num

/-- C7 (amended): the sample fraction is computed as `i / (num_pts - 1)`
with no guard; for `num_pts > 1` it is well defined and the sample time is
`min(i/(num_pts-1), 1) * end_time`, but for `num_pts = 1` the division is
`0/0 = NaN` and the sample time is `NaN`. -/
theorem sample_time_formula (e : ℚ) (n i : ℕ) (hn : 1 < n) :
    tSampleD (D.fin e) n i = D.fin (min ((i : ℚ) / ((n - 1 : ℕ) : ℚ)) 1 * e) ∧
    tScaleD 1 0 = D.nan ∧
    tSampleD (D.fin 0) 1 0 = D.nan :=
  ⟨tSampleD_fin e n i hn, by decide, by decide⟩

/-- C7 witness: the sample time at `end_time = 2`, `num_pts = 3`, `i = 1`. -/
theorem sample_time_formula_witness :
    tSampleD (D.fin 2) 3 1 = D.fin (min ((1 : ℚ) / ((3 - 1 : ℕ) : ℚ)) 1 * 2) ∧
    tScaleD 1 0 = D.nan ∧
    tSampleD (D.fin 0) 1 0 = D.nan :=
  sample_time_formula 2 3 1 (by norm_num)

/-- C4 (code bug): neither degenerate input is rejected.  With
`delta_t = 0` the resampler's line 218 computes
`ceil(end_time / 0.0) + 1 = +∞` (after the output trajectory was already
cleared) instead of signalling invalid-argument, and the fitter builds its
breaks/samples for a 1-waypoint trajectory without any validation,
deferring entirely to the downstream interpolation routine. -/
theorem degenerate_input_not_rejected :
    numPtsExpr (D.fin 1) (D.fin 0) = D.pinf ∧
    (getPiecewisePolynomial ⟨[(0, stP 0)]⟩ groupJ1 plantOne).breaks = [0] ∧
    (getPiecewisePolynomial ⟨[(0, stP 0)]⟩ groupJ1 plantOne).samples = [[0]] :=
  ⟨by decide, rfl, rfl⟩

/-- C10: `replaceSTLWithOBJ` performs exactly the simultaneous
left-to-right replacement of every `".stl"` and `".STL"` occurrence by
`".obj"` (all other characters unchanged), preserves the length, leaves no
`".stl"` or `".STL"` occurrence in its output, is idempotent, and leaves
mixed-case variants such as `".Stl"` untouched. -/
theorem replaceSTLWithOBJ_correct :
    (∀ s : List Char, replaceSTLWithOBJ s = simulReplaceSpec s) ∧
    (∀ s : List Char, (replaceSTLWithOBJ s).length = s.length) ∧
    (∀ s : List Char, contains4 '.' 's' 't' 'l' (replaceSTLWithOBJ s) = false) ∧
    (∀ s : List Char, contains4 '.' 'S' 'T' 'L' (replaceSTLWithOBJ s) = false) ∧
    (∀ s : List Char, replaceSTLWithOBJ (replaceSTLWithOBJ s) = replaceSTLWithOBJ s) ∧
    replaceSTLWithOBJ ['.', 'S', 't', 'l'] = ['.', 'S', 't', 'l'] := by
  refine ⟨replaceSTL_eq_spec, ?_, ?_, ?_, stl_replace_idem, by decide⟩
  · intro s
    rw [replaceSTLWithOBJ]
    rw [replace4_length _ _ _ _ objRepl rfl, replace4_length _ _ _ _ objRepl rfl]
  · intro s
    rw [replaceSTLWithOBJ]
    exact contains4_replace4 'S' 'T' 'L' 's' 't' 'l' (by decide) (by decide)
      (by decide) _
      (Or.inr (contains4_replace4 's' 't' 'l' 's' 't' 'l' (by decide) (by decide)
        (by decide) s (Or.inl ⟨rfl, rfl, rfl⟩)))
  · intro s
    rw [replaceSTLWithOBJ]
    exact contains4_replace4 'S' 'T' 'L' 'S' 'T' 'L' (by decide) (by decide)
      (by decide) _ (Or.inl ⟨rfl, rfl, rfl⟩)
